import Mathlib

/-!
Verification of the FrameScript backend's frame cache and decode scheduler
(`src/backend/src/decoder.rs`) and of the software single-frame extractor
(`src/backend/src/ffmpeg/sw_decoder.rs`).

The Rust code is shallowly embedded: machine integers become `Nat` with
explicit wrapping (`% 2^32` for `u32` arithmetic, `% 2^64` for `usize`
counters), pixel buffers become `List Nat` of byte values, the shared maps
become association lists whose order models the (unspecified) iteration
order of `HashMap`, and the ordered `BTreeSet` of pending frames becomes a
sorted list.  The `SharedManualFuture` completion cell and the hardware
single-shot decoder live outside the provided sources and are modelled from
the specification where noted.
-/

/-- `2^32`, the modulus of Rust `u32` arithmetic. -/
def U32 : Nat := 4294967296

/-- `2^64`, the modulus of Rust `usize` arithmetic (64-bit target). -/
def U64 : Nat := 18446744073709551616

/-- Wrapping `u32` multiplication, as in release-mode Rust. -/
def mul32 (a b : Nat) : Nat := a * b % U32

/-- Wrapping `u32` addition, as in release-mode Rust. -/
def add32 (a b : Nat) : Nat := (a + b) % U32

/-- Wrapping `usize` addition (`AtomicUsize::fetch_add`). -/
def addU (a b : Nat) : Nat := (a + b) % U64

/-- Wrapping `usize` subtraction (`AtomicUsize::fetch_sub`). -/
def subU (a b : Nat) : Nat := (a + (U64 - b % U64)) % U64

theorem addU_eq_add {a b : Nat} (h : a + b < U64) : addU a b = a + b := by
  simpa [addU] using Nat.mod_eq_of_lt h

theorem subU_eq_sub {a b : Nat} (ha : a < U64) (hba : b ≤ a) : subU a b = a - b := by
  have hb : b < U64 := lt_of_le_of_lt hba ha
  have hbmod : b % U64 = b := Nat.mod_eq_of_lt hb
  have hbU : b ≤ U64 := le_of_lt hb
  have hsplit : a + (U64 - b) = (a - b) + U64 := by omega
  have hlt : a - b < U64 := lt_of_le_of_lt (Nat.sub_le a b) ha
  calc (a + (U64 - b % U64)) % U64 = ((a - b) + U64) % U64 := by rw [hbmod, hsplit]
    _ = (a - b) % U64 := by simp [Nat.add_mod_right]
    _ = a - b := Nat.mod_eq_of_lt hlt

/-- A decoded frame: the raw RGBA bytes, one `Nat` per byte. -/
abbrev Frame := List Nat

/-- Modelled from the spec (§4.1): the `SharedManualFuture` completion cell
(`crate::future`, whose source is not among the provided files).  A cell is
either pending (`none`) or completed with shared bytes (`some v`); the first
`complete` wins, `get_now` returns the value iff completed. -/
abbrev Cell := Option Frame

/-- The four byte stores `buf[idx] = r; buf[idx+1] = g; buf[idx+2] = b;
buf[idx+3] = a` of `generate_empty_frame`. -/
def writePixel (buf : List Nat) (idx r g b a : Nat) : List Nat :=
  ((((buf.set idx r).set (idx + 1) g).set (idx + 2) b).set (idx + 3) a)

namespace DecoderRs

/-- `decoder.rs::generate_empty_frame`: a `width*height*4` zero buffer whose
every pixel is then set to opaque red `(255,0,0,255)`.  Index arithmetic is
`u32` and wraps as in release-mode Rust. -/
def generate_empty_frame (width height : Nat) : List Nat :=
  (List.range height).foldl
    (fun buf y =>
      (List.range width).foldl
        (fun buf x => writePixel buf (mul32 (add32 (mul32 y width) x) 4) 255 0 0 255)
        buf)
    (List.replicate (mul32 (mul32 width height) 4) 0)

end DecoderRs

namespace SwDecoder

/-- `sw_decoder.rs::generate_empty_frame`: a `width*height*4` zero buffer in
which only the alpha byte of every pixel is set to `255` (opaque black). -/
def generate_empty_frame (width height : Nat) : List Nat :=
  (List.range height).foldl
    (fun buf y =>
      (List.range width).foldl
        (fun buf x => buf.set (mul32 (add32 (mul32 y width) x) 4 + 3) 255)
        buf)
    (List.replicate (mul32 (mul32 width height) 4) 0)

end SwDecoder

/-- `n` copies of the byte block `blk`, concatenated. -/
def repeatBlock (blk : List Nat) : Nat → List Nat
  | 0 => []
  | n + 1 => blk ++ repeatBlock blk n

theorem repeatBlock_length (blk : List Nat) :
    ∀ n, (repeatBlock blk n).length = n * blk.length := by
  intro n
  induction n with
  | zero => simp [repeatBlock]
  | succ m ih => simp [repeatBlock, ih, Nat.succ_mul, Nat.add_comm]

theorem repeatBlock_comm (blk : List Nat) :
    ∀ n, repeatBlock blk n ++ blk = blk ++ repeatBlock blk n := by
  intro n
  induction n with
  | zero => simp [repeatBlock]
  | succ m ih =>
    show (blk ++ repeatBlock blk m) ++ blk = blk ++ (blk ++ repeatBlock blk m)
    rw [List.append_assoc, ih]

theorem set_append_len {l1 l2 : List Nat} :
    ∀ (j v : Nat), (l1 ++ l2).set (l1.length + j) v = l1 ++ l2.set j v := by
  induction l1 with
  | nil => intro j v; simp
  | cons a rest ih =>
    intro j v
    have hl : (a :: rest).length + j = (rest.length + j) + 1 := by
      simp [List.length_cons]; omega
    rw [List.cons_append, hl]
    show a :: ((rest ++ l2).set (rest.length + j) v) = a :: (rest ++ l2.set j v)
    rw [ih j v]

theorem foldl_congr_mem {α β : Type} (l : List α) (f g : β → α → β) :
    (∀ b x, x ∈ l → f b x = g b x) → ∀ b, l.foldl f b = l.foldl g b := by
  induction l with
  | nil => intro _ b; simp
  | cons a rest ih =>
    intro h b
    simp only [List.foldl_cons]
    rw [h b a (by simp)]
    exact ih (fun b' x hx => h b' x (by simp [hx])) (g b a)

/-- Filling a zeroed buffer one pixel at a time: folding a writer `W` (which
turns the next four zero bytes at an aligned offset into the block `blk`)
over consecutive pixel indices yields the repeated block. -/
theorem fill_fold (W : List Nat → Nat → List Nat) (blk : List Nat)
    (hW : ∀ k rest, W (repeatBlock blk k ++ (0 :: 0 :: 0 :: 0 :: rest)) (k * 4)
        = repeatBlock blk k ++ (blk ++ rest)) :
    ∀ (m k : Nat),
      List.foldl (fun buf p => W buf (p * 4))
          (repeatBlock blk k ++ List.replicate (m * 4) 0) (List.range' k m)
        = repeatBlock blk (k + m) := by
  intro m
  induction m with
  | zero => intro k; simp [List.range']
  | succ n ih =>
    intro k
    have hrange : List.range' k (n + 1) = k :: List.range' (k + 1) n := by
      simp [List.range'_succ]
    have hrep : List.replicate ((n + 1) * 4) (0 : Nat)
        = 0 :: 0 :: 0 :: 0 :: List.replicate (n * 4) 0 := by
      have : (n + 1) * 4 = n * 4 + 4 := by ring
      simp [this, List.replicate_add, List.replicate_succ]
    rw [hrange, List.foldl_cons, hrep, hW k (List.replicate (n * 4) 0)]
    have hblk : repeatBlock blk k ++ (blk ++ List.replicate (n * 4) 0)
        = repeatBlock blk (k + 1) ++ List.replicate (n * 4) 0 := by
      rw [← List.append_assoc, repeatBlock_comm]
      show blk ++ repeatBlock blk k ++ List.replicate (n * 4) 0
          = repeatBlock blk (k + 1) ++ List.replicate (n * 4) 0
      rfl
    rw [hblk, ih (k + 1)]
    congr 1
    omega

theorem set_append_idx {l1 l2 : List Nat} {n : Nat} (j v : Nat) (h : n = l1.length + j) :
    (l1 ++ l2).set n v = l1 ++ l2.set j v := by
  rw [h]; exact set_append_len j v

theorem writePixel_at_block (L rest : List Nat) (r g b a : Nat) :
    writePixel (L ++ (0 :: 0 :: 0 :: 0 :: rest)) L.length r g b a
      = L ++ (r :: g :: b :: a :: rest) := by
  unfold writePixel
  rw [set_append_idx 0 r (Nat.add_zero L.length).symm]
  simp only [List.set_cons_zero]
  rw [set_append_idx 1 g rfl]
  simp only [List.set_cons_succ, List.set_cons_zero]
  rw [set_append_idx 2 b rfl]
  simp only [List.set_cons_succ, List.set_cons_zero]
  rw [set_append_idx 3 a rfl]
  simp only [List.set_cons_succ, List.set_cons_zero]

theorem setAlpha_at_block (L rest : List Nat) (a : Nat) :
    (L ++ (0 :: 0 :: 0 :: 0 :: rest)).set (L.length + 3) a
      = L ++ (0 :: 0 :: 0 :: a :: rest) := by
  rw [set_append_len 3 a]
  simp only [List.set_cons_succ, List.set_cons_zero]

/-- Flattening the row-major double loop over `y < n`, `x < w` into a single
loop over pixel ordinals. -/
theorem double_fold_flatten (W : List Nat → Nat → List Nat) (w : Nat) :
    ∀ (n k : Nat) (buf : List Nat),
      (List.range' k n).foldl
          (fun b y => (List.range w).foldl (fun b2 x => W b2 ((y * w + x) * 4)) b) buf
        = (List.range' (k * w) (n * w)).foldl (fun b p => W b (p * 4)) buf := by
  intro n
  induction n with
  | zero => intro k buf; simp [List.range']
  | succ m ih =>
    intro k buf
    rw [List.range'_succ, List.foldl_cons]
    have hinner : ∀ (b : List Nat),
        (List.range w).foldl (fun b2 x => W b2 ((k * w + x) * 4)) b
          = (List.range' (k * w) w).foldl (fun b p => W b (p * 4)) b := by
      intro b
      rw [List.range'_eq_map_range, List.foldl_map]
    have hsplit : List.range' (k * w) w ++ List.range' (k * w + w) (m * w)
        = List.range' (k * w) ((m + 1) * w) := by
      have h2 : m * w + w = (m + 1) * w := by ring
      rw [← h2]
      exact List.range'_append_1 (k * w) w (m * w)
    rw [ih (k + 1)]
    have hkw : (k + 1) * w = k * w + w := by ring
    rw [hkw, hinner buf, ← List.foldl_append, hsplit]

theorem repeatBlock_four_length (r g b a : Nat) (k : Nat) :
    (repeatBlock [r, g, b, a] k).length = k * 4 := by
  have h := repeatBlock_length [r, g, b, a] k
  simpa using h

/-- `decoder.rs::generate_empty_frame` is, byte for byte, the all-red pixel
block repeated once per pixel (when the buffer size fits in `u32`). -/
theorem red_frame_eq_pattern (width height : Nat) (hb : width * height * 4 < U32) :
    DecoderRs.generate_empty_frame width height
      = repeatBlock [255, 0, 0, 255] (height * width) := by
  have hwh : width * height < U32 := by
    have h4 : width * height ≤ width * height * 4 := by omega
    omega
  unfold DecoderRs.generate_empty_frame
  have hinit : mul32 (mul32 width height) 4 = width * height * 4 := by
    unfold mul32
    rw [Nat.mod_eq_of_lt hwh, Nat.mod_eq_of_lt hb]
  rw [hinit]
  have hcong : (List.range height).foldl
      (fun buf y => (List.range width).foldl
        (fun buf x => writePixel buf (mul32 (add32 (mul32 y width) x) 4) 255 0 0 255) buf)
      (List.replicate (width * height * 4) 0)
    = (List.range height).foldl
      (fun buf y => (List.range width).foldl
        (fun buf x => writePixel buf ((y * width + x) * 4) 255 0 0 255) buf)
      (List.replicate (width * height * 4) 0) := by
    apply foldl_congr_mem
    intro b y hy
    apply foldl_congr_mem
    intro b2 x hx
    have hy' : y < height := List.mem_range.mp hy
    have hx' : x < width := List.mem_range.mp hx
    have hstep : (y + 1) * width ≤ height * width := Nat.mul_le_mul_right width hy'
    have hyx : y * width + x < width * height := by
      have h1 : (y + 1) * width = y * width + width := by ring
      have h2 : height * width = width * height := Nat.mul_comm height width
      omega
    have h1 : y * width < U32 := by omega
    have h2 : y * width + x < U32 := by omega
    have h3 : (y * width + x) * 4 < U32 := by
      have := Nat.mul_lt_mul_of_lt_of_le hyx (le_refl 4) (by norm_num)
      omega
    have hidx : mul32 (add32 (mul32 y width) x) 4 = (y * width + x) * 4 := by
      unfold mul32 add32
      rw [Nat.mod_eq_of_lt h1, Nat.mod_eq_of_lt h2, Nat.mod_eq_of_lt h3]
    rw [hidx]
  rw [hcong, List.range_eq_range' height]
  have hflat := double_fold_flatten (fun buf idx => writePixel buf idx 255 0 0 255)
      width height 0 (List.replicate (width * height * 4) 0)
  rw [Nat.zero_mul] at hflat
  rw [hflat]
  have hfill := fill_fold (fun buf idx => writePixel buf idx 255 0 0 255) [255, 0, 0, 255]
      (fun k rest => by
        have hlen := repeatBlock_four_length 255 0 0 255 k
        rw [← hlen]
        exact writePixel_at_block _ rest 255 0 0 255)
      (height * width) 0
  rw [Nat.zero_add] at hfill
  have hrep : List.replicate (width * height * 4) (0 : Nat)
      = List.replicate (height * width * 4) (0 : Nat) := by
    rw [Nat.mul_comm width height]
  rw [hrep]
  exact hfill

/-- `sw_decoder.rs::generate_empty_frame` is the opaque-black pixel block
repeated once per pixel (when the buffer size fits in `u32`). -/
theorem black_frame_eq_pattern (width height : Nat) (hb : width * height * 4 < U32) :
    SwDecoder.generate_empty_frame width height
      = repeatBlock [0, 0, 0, 255] (height * width) := by
  have hwh : width * height < U32 := by
    have h4 : width * height ≤ width * height * 4 := by omega
    omega
  unfold SwDecoder.generate_empty_frame
  have hinit : mul32 (mul32 width height) 4 = width * height * 4 := by
    unfold mul32
    rw [Nat.mod_eq_of_lt hwh, Nat.mod_eq_of_lt hb]
  rw [hinit]
  have hcong : (List.range height).foldl
      (fun buf y => (List.range width).foldl
        (fun buf x => buf.set (mul32 (add32 (mul32 y width) x) 4 + 3) 255) buf)
      (List.replicate (width * height * 4) 0)
    = (List.range height).foldl
      (fun buf y => (List.range width).foldl
        (fun buf x => buf.set ((y * width + x) * 4 + 3) 255) buf)
      (List.replicate (width * height * 4) 0) := by
    apply foldl_congr_mem
    intro b y hy
    apply foldl_congr_mem
    intro b2 x hx
    have hy' : y < height := List.mem_range.mp hy
    have hx' : x < width := List.mem_range.mp hx
    have hstep : (y + 1) * width ≤ height * width := Nat.mul_le_mul_right width hy'
    have hyx : y * width + x < width * height := by
      have h1 : (y + 1) * width = y * width + width := by ring
      have h2 : height * width = width * height := Nat.mul_comm height width
      omega
    have h1 : y * width < U32 := by omega
    have h2 : y * width + x < U32 := by omega
    have h3 : (y * width + x) * 4 < U32 := by
      have := Nat.mul_lt_mul_of_lt_of_le hyx (le_refl 4) (by norm_num)
      omega
    have hidx : mul32 (add32 (mul32 y width) x) 4 = (y * width + x) * 4 := by
      unfold mul32 add32
      rw [Nat.mod_eq_of_lt h1, Nat.mod_eq_of_lt h2, Nat.mod_eq_of_lt h3]
    rw [hidx]
  rw [hcong, List.range_eq_range' height]
  have hflat := double_fold_flatten (fun buf idx => buf.set (idx + 3) 255)
      width height 0 (List.replicate (width * height * 4) 0)
  rw [Nat.zero_mul] at hflat
  rw [hflat]
  have hfill := fill_fold (fun buf idx => buf.set (idx + 3) 255) [0, 0, 0, 255]
      (fun k rest => by
        have hlen := repeatBlock_four_length 0 0 0 255 k
        rw [← hlen]
        exact setAlpha_at_block _ rest 255)
      (height * width) 0
  rw [Nat.zero_add] at hfill
  have hrep : List.replicate (width * height * 4) (0 : Nat)
      = List.replicate (height * width * 4) (0 : Nat) := by
    rw [Nat.mul_comm width height]
  rw [hrep]
  exact hfill

/-- The four bytes of pixel `p` of a raw RGBA buffer. -/
def pixelAt (buf : List Nat) (p : Nat) : Option Nat × Option Nat × Option Nat × Option Nat :=
  (buf.get? (4 * p), buf.get? (4 * p + 1), buf.get? (4 * p + 2), buf.get? (4 * p + 3))

theorem cons4_get (x1 x2 x3 x4 : Nat) (l : List Nat) (n : Nat) :
    (x1 :: x2 :: x3 :: x4 :: l).get? (n + 4) = l.get? n := by
  have h : n + 4 = n + 1 + 1 + 1 + 1 := by ring
  rw [h]
  simp [List.get?_cons_succ]

theorem repeatBlock_pixel (r g b a : Nat) :
    ∀ n p, p < n →
      pixelAt (repeatBlock [r, g, b, a] n) p = (some r, some g, some b, some a) := by
  intro n
  induction n with
  | zero => intro p hp; exact absurd hp (Nat.not_lt_zero p)
  | succ m ih =>
    intro p hp
    cases p with
    | zero =>
      show pixelAt (r :: g :: b :: a :: repeatBlock [r, g, b, a] m) 0 = _
      simp [pixelAt]
    | succ q =>
      have hq : q < m := by omega
      have hbase := ih q hq
      have e0 : 4 * (q + 1) = 4 * q + 4 := by ring
      have e1 : 4 * q + 4 + 1 = (4 * q + 1) + 4 := by ring
      have e2 : 4 * q + 4 + 2 = (4 * q + 2) + 4 := by ring
      have e3 : 4 * q + 4 + 3 = (4 * q + 3) + 4 := by ring
      show pixelAt (r :: g :: b :: a :: repeatBlock [r, g, b, a] m) (q + 1) = _
      simp only [pixelAt] at hbase ⊢
      rw [e0, e1, e2, e3, cons4_get, cons4_get, cons4_get, cons4_get]
      exact hbase

theorem red_frame_length (width height : Nat) (hb : width * height * 4 < U32) :
    (DecoderRs.generate_empty_frame width height).length = width * height * 4 := by
  rw [red_frame_eq_pattern width height hb, repeatBlock_four_length]
  ring

theorem red_frame_pixels (width height : Nat) (hb : width * height * 4 < U32) :
    ∀ p, p < width * height →
      pixelAt (DecoderRs.generate_empty_frame width height) p
        = (some 255, some 0, some 0, some 255) := by
  intro p hp
  rw [red_frame_eq_pattern width height hb]
  refine repeatBlock_pixel 255 0 0 255 (height * width) p ?h
  rw [Nat.mul_comm height width]
  exact hp

theorem black_frame_length (width height : Nat) (hb : width * height * 4 < U32) :
    (SwDecoder.generate_empty_frame width height).length = width * height * 4 := by
  rw [black_frame_eq_pattern width height hb, repeatBlock_four_length]
  ring

theorem black_frame_pixels (width height : Nat) (hb : width * height * 4 < U32) :
    ∀ p, p < width * height →
      pixelAt (SwDecoder.generate_empty_frame width height) p
        = (some 0, some 0, some 0, some 255) := by
  intro p hp
  rw [black_frame_eq_pattern width height hb]
  refine repeatBlock_pixel 0 0 0 255 (height * width) p ?h
  rw [Nat.mul_comm height width]
  exact hp

/-! ## The per-decoder cache state and its operations (`decoder.rs`)

`frames: RwLock<HashMap<u32, SharedManualFuture<Vec<u8>>>>` becomes an
association list whose list order stands for the `HashMap`'s unspecified
iteration order; `pending_frames: Mutex<BTreeSet<u32>>` becomes a sorted
duplicate-free list; the global `ENTIRE_CACHE_SIZE` / `MAX_CACHE_SIZE`
atomics are carried as fields of the single decoder under study. -/

/-- `HashMap::get` on the association list. -/
def lookupKey (i : Nat) : List (Nat × Cell) → Option Cell
  | [] => none
  | (j, c) :: rest => if j = i then some c else lookupKey i rest

/-- `HashMap::remove` on the association list (key positions of the other
entries are unchanged). -/
def eraseKey (i : Nat) : List (Nat × Cell) → List (Nat × Cell)
  | [] => []
  | (j, c) :: rest => if j = i then rest else (j, c) :: eraseKey i rest

/-- Completing the shared cell stored under a key: the map itself is not
touched by `SharedManualFuture::complete`, only the cell's content, so the
entry keeps its position. -/
def setKey (i : Nat) (c : Cell) : List (Nat × Cell) → List (Nat × Cell)
  | [] => []
  | (j, d) :: rest => if j = i then (j, c) :: rest else (j, d) :: setKey i c rest

/-- `BTreeSet::remove`: drops the element and reports whether it was present. -/
def removeElem : List Nat → Nat → List Nat × Bool
  | [], _ => ([], false)
  | a :: rest, x =>
    if a = x then (rest, true)
    else
      let r := removeElem rest x
      (a :: r.1, r.2)

/-- `BTreeSet::insert` on the sorted duplicate-free list. -/
def insertSorted : List Nat → Nat → List Nat
  | [], x => [x]
  | a :: rest, x =>
    if x < a then x :: a :: rest
    else if x = a then a :: rest
    else a :: insertSorted rest x

/-- `STREAM_RESTART_GAP` (decoder.rs line 112). -/
def STREAM_RESTART_GAP : Nat := 90

/-- `RECENT_FRAME_CACHE` (decoder.rs line 113). -/
def RECENT_FRAME_CACHE : Nat := 6

/-- The mutable state of one `CachedDecoder` (`Inner`), together with the
process-wide byte counter `ENTIRE_CACHE_SIZE` and budget `MAX_CACHE_SIZE`. -/
structure DecState where
  width : Nat
  height : Nat
  frames : List (Nat × Cell)
  pending : List Nat
  pinned : Option Nat
  recent : List Nat
  streamRunning : Bool
  closed : Bool
  cacheBytes : Nat
  maxBytes : Nat
deriving DecidableEq

/-- `CachedDecoder::close`. -/
def closeDec (s : DecState) : DecState := { s with closed := true }

/-- The `frames.entry(i).or_insert_with(SharedManualFuture::new)` step of
`get_frame`: returns the cell and the possibly-extended map (a fresh key's
position in the iteration order is arbitrary; appending is one such order). -/
def ensureEntry (s : DecState) (i : Nat) : Cell × DecState :=
  match lookupKey i s.frames with
  | some c => (c, s)
  | none => (none, { s with frames := s.frames ++ [(i, none)] })

/-- The `while recent_frames.len() > RECENT_FRAME_CACHE` loop of
`finish_frame`: pop the front; a popped index equal to the pin is skipped,
any other popped index is removed from the frames map, decrementing the
global counter by the entry's byte length if its cell was completed. -/
def popLoop (pinned : Option Nat) :
    List Nat → List (Nat × Cell) → Nat → List Nat × List (Nat × Cell) × Nat
  | [], frames, counter => ([], frames, counter)
  | r :: rest, frames, counter =>
    if (r :: rest).length > RECENT_FRAME_CACHE then
      if some r = pinned then popLoop pinned rest frames counter
      else
        match lookupKey r frames with
        | none => popLoop pinned rest frames counter
        | some c =>
          let counter1 := match c with
            | some v => subU counter v.length
            | none => counter
          popLoop pinned rest (eraseKey r frames) counter1
    else (r :: rest, frames, counter)

/-- `CachedDecoder::finish_frame` (decoder.rs lines 319-342). -/
def finishFrame (s : DecState) (i : Nat) (frame : Frame) : Frame × DecState :=
  if some i = s.pinned then (frame, s)
  else
    let recent1 := if s.recent.getLast? = some i then s.recent else s.recent ++ [i]
    let out := popLoop s.pinned recent1 s.frames s.cacheBytes
    (frame, { s with recent := out.1, frames := out.2.1, cacheBytes := out.2.2 })

/-- The body of the eviction walk of `schedule_gc` (decoder.rs lines
199-223), over the key list in the order it is visited. -/
def gcLoop (pendingSnap : List Nat) (pinned : Option Nat) (recentSnap : List Nat)
    (maxBytes : Nat) :
    List Nat → List (Nat × Cell) → Nat → List (Nat × Cell) × Nat
  | [], frames, counter => (frames, counter)
  | idx :: rest, frames, counter =>
    if some idx = pinned then gcLoop pendingSnap pinned recentSnap maxBytes rest frames counter
    else if idx ∈ pendingSnap then gcLoop pendingSnap pinned recentSnap maxBytes rest frames counter
    else if idx ∈ recentSnap then gcLoop pendingSnap pinned recentSnap maxBytes rest frames counter
    else
      match lookupKey idx frames with
      | some (some v) =>
        let frames1 := eraseKey idx frames
        let counter1 := subU counter v.length
        if counter1 < maxBytes then (frames1, counter1)
        else gcLoop pendingSnap pinned recentSnap maxBytes rest frames1 counter1
      | _ => gcLoop pendingSnap pinned recentSnap maxBytes rest frames counter

/-- One pass of the GC task spawned by `schedule_gc`: when the counter has
reached the budget, walk `frames.keys().rev()` — the reverse of the map's
iteration order — evicting completed, unprotected entries until the counter
drops below the budget. -/
def gcPass (s : DecState) : DecState :=
  if s.cacheBytes ≥ s.maxBytes then
    let out := gcLoop s.pending s.pinned s.recent s.maxBytes
        ((s.frames.map Prod.fst).reverse) s.frames s.cacheBytes
    { s with frames := out.1, cacheBytes := out.2 }
  else s

/-- The eviction walk exactly as §4.6 of the spec words it, parameterised by
the order in which the frame indices are visited: skip any frame that is
pinned, pending or recent; remove each remaining entry that is ready,
decrementing the byte counter; stop as soon as the counter is below the
budget. -/
def gcSpecWalk (pend : List Nat) (pin : Option Nat) (recents : List Nat) (maxB : Nat) :
    List Nat → List (Nat × Cell) → Nat → List (Nat × Cell) × Nat
  | [], fs, c => (fs, c)
  | j :: order, fs, c =>
    if some j = pin ∨ j ∈ pend ∨ j ∈ recents then gcSpecWalk pend pin recents maxB order fs c
    else
      match lookupKey j fs with
      | some (some bytes) =>
        let c1 := subU c bytes.length
        let fs1 := eraseKey j fs
        if c1 < maxB then (fs1, c1) else gcSpecWalk pend pin recents maxB order fs1 c1
      | _ => gcSpecWalk pend pin recents maxB order fs c

/-- The backward walk of the `get_frame` timeout fallback (decoder.rs lines
273-294): starting from `i`, repeatedly `checked_sub(1)` and return the
first predecessor whose cached cell is completed; `none` when the walk
reaches frame 0 without finding one. -/
def nearestPredecessor (frames : List (Nat × Cell)) : Nat → Option Frame
  | 0 => none
  | j + 1 =>
    match lookupKey j frames with
    | some (some v) => some v
    | _ => nearestPredecessor frames j

/-- The frame the timeout fallback hands back: the nearest completed
predecessor, or a synthesised empty frame at the decoder's resolution. -/
def fallbackFrame (s : DecState) (i : Nat) : Frame :=
  match nearestPredecessor s.frames i with
  | some v => v
  | none => DecoderRs.generate_empty_frame s.width s.height

/-- What `get_frame` observes at each turn of its 1-second `timeout` loop
(decoder.rs lines 258-298): either the awaited cell resolves — the
observation carries the frames map at that instant, evolved meanwhile by the
concurrent decode tasks — or the window times out while
`running_decode_tasks` reads the given value. -/
inductive TickObs where
  | resolved (framesAtResolve : List (Nat × Cell)) : TickObs
  | timeout (running : Nat) : TickObs
deriving DecidableEq

/-- The `loop { match timeout(1s, future.get()).await { .. } }` of
`get_frame`: a resolved await yields the completed cell's bytes; a timeout
with running decode tasks keeps waiting; a timeout with none removes `i`
from `pending_frames` and yields the fallback frame.  `none` means the
modelled observation trace ended with the call still waiting. -/
def awaitFrame (s : DecState) (i : Nat) : List TickObs → Option (Frame × DecState)
  | [] => none
  | TickObs.resolved m :: _ =>
    match lookupKey i m with
    | some (some v) => some (v, s)
    | _ => none
  | TickObs.timeout r :: rest =>
    if r > 0 then awaitFrame s i rest
    else
      let s1 := { s with pending := (removeElem s.pending i).1 }
      some (fallbackFrame s1 i, s1)

/-- `CachedDecoder::get_frame` (decoder.rs lines 231-301): ensure the entry,
return a completed cell at once, otherwise pin (first miss only), mark
pending, start the stream task, and await with the 1-second polling loop;
every exit passes through `finish_frame`. -/
def getFrame (s : DecState) (i : Nat) (trace : List TickObs) : Option (Frame × DecState) :=
  let e := ensureEntry s i
  match e.1 with
  | some v => some (finishFrame e.2 i v)
  | none =>
    let s2 := match e.2.pinned with
      | none => { e.2 with pinned := some i }
      | some _ => e.2
    let s3 := { s2 with pending := insertSorted s2.pending i, streamRunning := true }
    match awaitFrame s3 i trace with
    | some p => some (finishFrame p.2 i p.1)
    | none => none

/-- `complete_pending_with_fallback` (decoder.rs lines 601-636), one pending
frame: re-check membership in `pending_frames`, fetch the cell, and if it is
still pending complete it with the single-shot decode (or, on decode error,
the all-red empty frame), adding the byte length to the global counter.
`singleShot` models `hw_decoder::extract_frame_hw_rgba`, which is not among
the provided sources. -/
def fallbackStep (singleShot : Nat → Option Frame) (s : DecState) (i : Nat) : DecState :=
  let rem := removeElem s.pending i
  if rem.2 then
    let s1 := { s with pending := rem.1 }
    match lookupKey i s1.frames with
    | none => s1
    | some (some _) => s1
    | some none =>
      let frame := (singleShot i).getD (DecoderRs.generate_empty_frame s1.width s1.height)
      { s1 with cacheBytes := addU s1.cacheBytes frame.length,
                frames := setKey i (some frame) s1.frames }
  else s

/-- `complete_pending_with_fallback` (decoder.rs lines 601-636): snapshot
`pending_frames` and run the fallback step over every snapshotted frame. -/
def completePendingWithFallback (singleShot : Nat → Option Frame) (s : DecState) : DecState :=
  s.pending.foldl (fallbackStep singleShot) s

/-- `usize::saturating_mul`. -/
def satMul (a b : Nat) : Nat := min (a * b) (U64 - 1)

/-- `FrameStream::spawn`'s frame size:
`(dst_width as usize).saturating_mul(dst_height as usize).saturating_mul(4)`. -/
def frameSizeOf (w h : Nat) : Nat := satMul (satMul w h) 4

/-- `FrameStream::read_next`: `read_exact` fills a buffer of exactly
`frame_size` bytes from the subprocess's stdout byte stream. -/
def readNextFrame (byteStream : Nat → Nat) (pos size : Nat) : List Nat :=
  (List.range size).map (fun j => byteStream (pos + j))

/-- The `while current_frame <= target_frame` advance loop of
`run_stream_loop` (decoder.rs lines 519-593).  `byteStream` is the
subprocess's raw stdout, `readErr i` tells whether the read at frame `i`
fails, `spawnSwOk` whether the software respawn after a hardware read error
succeeds, and `singleShot` feeds the fallback routine.  Returns the state
and the final `current_frame`. -/
def streamAdvanceAux (byteStream : Nat → Nat) (readErr : Nat → Bool)
    (useHw spawnSwOk : Bool) (singleShot : Nat → Option Frame) :
    Nat → DecState → Nat → Nat → Nat → DecState × Nat
  | 0, s, current, _target, _pos => (s, current)
  | fuel + 1, s, current, target, pos =>
    if current > target then (s, current)
    else if (match s.pending.head? with
             | some m => decide (m < current)
             | none => false) then (s, current)
    else if readErr current then
      if useHw then
        if spawnSwOk then (s, current)
        else (completePendingWithFallback singleShot s, current)
      else (completePendingWithFallback singleShot s, current)
    else
      let frame := readNextFrame byteStream pos (frameSizeOf s.width s.height)
      let rem := removeElem s.pending current
      let s1 := { s with pending := rem.1 }
      let s2 :=
        if rem.2 then
          match lookupKey current s1.frames with
          | some Option.none =>
            { s1 with cacheBytes := addU s1.cacheBytes frame.length,
                      frames := setKey current (some frame) s1.frames }
          | _ => s1
        else s1
      streamAdvanceAux byteStream readErr useHw spawnSwOk singleShot fuel s2
        (current + 1) target (pos + frameSizeOf s.width s.height)

/-- The advance loop with its natural fuel `target + 1 - current`. -/
def streamAdvance (byteStream : Nat → Nat) (readErr : Nat → Bool)
    (useHw spawnSwOk : Bool) (singleShot : Nat → Option Frame)
    (s : DecState) (current target pos : Nat) : DecState × Nat :=
  streamAdvanceAux byteStream readErr useHw spawnSwOk singleShot
    (target + 1 - current) s current target pos

/-- The restart decision of `run_stream_loop` (decoder.rs lines 470-476):
restart when there is no active stream, or the target precedes the stream's
next frame, or it lies more than `STREAM_RESTART_GAP` frames ahead
(`saturating_sub` is `Nat` subtraction). -/
def decideRestart (hasStream : Bool) (targetFrame currentFrame : Nat) : Bool :=
  match hasStream with
  | false => true
  | true =>
    decide (targetFrame < currentFrame)
      || decide (targetFrame - currentFrame > STREAM_RESTART_GAP)

/-- The observable outcome of the head of one `run_stream_loop` iteration
(decoder.rs lines 455-517): exit on `closed`; idle-wait when nothing is
pending; restart (spawn succeeding or falling back) or advance otherwise. -/
inductive IterStep where
  | exit : IterStep
  | idle : IterStep
  | restartSpawned (current : Nat) : IterStep
  | restartFallback : IterStep
  | advance (current target : Nat) : IterStep
deriving DecidableEq

/-- The head of one `run_stream_loop` iteration: read `closed`, take
`min(pending_frames)` as the target, decide restart via `decideRestart`;
`spawnOk` tells whether (either of) the spawn attempts succeeds.  On a
successful restart `current_frame` becomes the target (decoder.rs line 512);
on a failed one the pending frames are fallback-completed and the loop
continues without touching `current_frame`. -/
def runStreamIterStep (closed : Bool) (pending : List Nat) (hasStream : Bool)
    (current : Nat) (spawnOk : Bool) : IterStep :=
  if closed then IterStep.exit
  else
    match pending.head? with
    | none => IterStep.idle
    | some target =>
      if decideRestart hasStream target current then
        if spawnOk then IterStep.restartSpawned target else IterStep.restartFallback
      else IterStep.advance current target

/-! ## The process-wide decoder registry (`Decoder`) -/

/-- `DecoderKey` (decoder.rs lines 127-133). -/
structure RegKey where
  path : String
  width : Nat
  height : Nat
  sessionId : Nat
deriving DecidableEq

/-- The registry-visible face of one `CachedDecoder`: its `closed` flag and
`running_decode_tasks` counter. -/
structure RegDecoder where
  closed : Bool
  running : Nat
deriving DecidableEq

/-- The registry `Decoder.map` together with `ENTIRE_CACHE_SIZE`. -/
structure RegistryState where
  decoders : List (RegKey × RegDecoder)
  cacheBytes : Nat
deriving DecidableEq

/-- `CachedDecoder::close` as seen by the registry: set `closed`, notify the
stream worker. -/
def closeRegDecoder (d : RegDecoder) : RegDecoder := { d with closed := true }

/-- The `loop { .. sleep(50ms) }` of `Decoder::clear` (decoder.rs lines
68-83): `sched t` is the list of the removed decoders'
`running_decode_tasks` counters as observed at the `t`-th 50 ms poll;
returns the first tick at which all are zero, `none` when the modelled
schedule never drains within the fuel. -/
def clearPollLoop (sched : Nat → List Nat) : Nat → Nat → Option Nat
  | 0, _ => none
  | fuel + 1, t =>
    if (sched t).all (fun r => r = 0) then some t
    else clearPollLoop sched fuel (t + 1)

/-- `Decoder::clear` (decoder.rs lines 54-86): swap the registry map out,
close every removed decoder, poll the running counters until all are zero,
then store 0 into the global byte counter.  Returns the new registry state,
the closed decoders, and the poll tick at which the wait ended. -/
def registryClear (g : RegistryState) (sched : Nat → List Nat) (fuel : Nat) :
    Option (RegistryState × List RegDecoder × Nat) :=
  let removed := g.decoders.map (fun kv => closeRegDecoder kv.2)
  match clearPollLoop sched fuel 0 with
  | some t => some ({ decoders := [], cacheBytes := 0 }, removed, t)
  | none => none

/-- `Decoder::clear_session` (decoder.rs lines 88-106): retain the decoders
of other sessions, close each removed one; the byte counter and the running
counters are not touched. -/
def clearSession (g : RegistryState) (sid : Nat) : RegistryState × List RegDecoder :=
  let removed := (g.decoders.filter (fun kv => decide (kv.1.sessionId = sid))).map
    (fun kv => closeRegDecoder kv.2)
  ({ g with decoders := g.decoders.filter (fun kv => ¬ kv.1.sessionId = sid) }, removed)

/-! ## The software single-frame extractor (`sw_decoder.rs`) -/

/-- One frame handed out by `decoder.receive_frame`: its presentation
timestamp, if any. -/
structure SwFrame where
  ts : Option Int
deriving DecidableEq

/-- One demuxed packet: its stream index, whether `send_packet` succeeds,
and the decoded frames the receive loop then drains. -/
structure SwPacket where
  streamIdx : Nat
  sendOk : Bool
  frames : List SwFrame
deriving DecidableEq

/-- The frame-index computation of `extract_frame_sw_rgba` (sw_decoder.rs
lines 58-73 and 91-106): a timestamped frame's index comes from the
timestamp (`tsIndex` abstracts the floating-point
`(ts*tb_num/tb_den*fps).round()` computation); an untimestamped frame takes
the running `fallback_index`, which is then incremented.  Returns the index
and the new fallback counter. -/
def swFrameIndex (tsIndex : Int → Nat) (fallback : Nat) : Option Int → Nat × Nat
  | some t => (tsIndex t, fallback)
  | none => (fallback, fallback + 1)

/-- The `while decoder.receive_frame(..).is_ok()` loop over one packet's
frames (sw_decoder.rs lines 57-83): stop with the first frame whose computed
index equals the target; give up on the packet when an index overshoots
`target + 8`. -/
def scanPacketFrames (tsIndex : Int → Nat) (target : Nat) :
    List SwFrame → Nat → Option SwFrame × Nat
  | [], fb => (none, fb)
  | f :: rest, fb =>
    let r := swFrameIndex tsIndex fb f.ts
    if r.1 = target then (some f, r.2)
    else if r.1 > target + 8 then (none, r.2)
    else scanPacketFrames tsIndex target rest r.2

/-- The post-EOF drain loop (sw_decoder.rs lines 90-112): same scan without
the overshoot break. -/
def scanDrainFrames (tsIndex : Int → Nat) (target : Nat) :
    List SwFrame → Nat → Option SwFrame × Nat
  | [], fb => (none, fb)
  | f :: rest, fb =>
    let r := swFrameIndex tsIndex fb f.ts
    if r.1 = target then (some f, r.2)
    else scanDrainFrames tsIndex target rest r.2

/-- The packet loop of `extract_frame_sw_rgba` (sw_decoder.rs lines 48-84):
skip packets of other streams, fail if `send_packet` fails, scan each
packet's frames, threading the fallback counter.  `Sum.inl` is an early
return (matched frame converted by `rgbaOf`, or an error); `Sum.inr` is
fall-through with the final fallback counter. -/
def swPacketLoop (tsIndex : Int → Nat) (rgbaOf : SwFrame → Except String (List Nat))
    (videoIdx target : Nat) :
    List SwPacket → Nat → Except String (List Nat) ⊕ Nat
  | [], fb => Sum.inr fb
  | p :: rest, fb =>
    if p.streamIdx ≠ videoIdx then swPacketLoop tsIndex rgbaOf videoIdx target rest fb
    else if ¬ p.sendOk then Sum.inl (Except.error "send_packet failed")
    else
      match scanPacketFrames tsIndex target p.frames fb with
      | (some f, _) => Sum.inl (rgbaOf f)
      | (none, fb1) => swPacketLoop tsIndex rgbaOf videoIdx target rest fb1

/-- `extract_frame_sw_rgba` (sw_decoder.rs lines 9-115) over an abstracted
libav decoder: `packets`/`drainFrames` are the demuxer's packets and the
post-EOF frames, `eofOk` whether `send_eof` succeeds, `rgbaOf` models
`sw_frame_to_rgba`.  The fallback counter starts at the target frame.  When
nothing matches, the synthesised black empty frame is returned. -/
def extract_frame_sw_rgba (tsIndex : Int → Nat)
    (rgbaOf : SwFrame → Except String (List Nat)) (videoIdx : Nat) (eofOk : Bool)
    (packets : List SwPacket) (drainFrames : List SwFrame)
    (target dstWidth dstHeight : Nat) : Except String (List Nat) :=
  match swPacketLoop tsIndex rgbaOf videoIdx target packets target with
  | Sum.inl r => r
  | Sum.inr fb =>
    if ¬ eofOk then Except.error "failed to send EOF"
    else
      match scanDrainFrames tsIndex target drainFrames fb with
      | (some f, _) => rgbaOf f
      | (none, _) => Except.ok (SwDecoder.generate_empty_frame dstWidth dstHeight)

theorem decideRestart_iff (hs : Bool) (t c : Nat) :
    decideRestart hs t c = true
      ↔ (hs = false ∨ t < c ∨ t - c > STREAM_RESTART_GAP) := by
  cases hs <;> simp [decideRestart]

/-- Claim C3: at each scheduler iteration with `target = min(pending_frames)`
and `current` the next frame the active stream would yield, the stream is
restarted (old one shut down, new one aimed at `target`, `current` set to
`target`) if and only if there is no active stream, or `target < current`,
or `target - current > STREAM_RESTART_GAP = 90`; otherwise the existing
stream is advanced. -/
theorem stream_restart_decision (pending : List Nat) (hasStream : Bool)
    (current : Nat) (spawnOk : Bool) (target : Nat)
    (hmin : pending.head? = some target)
    (hsorted : pending.Sorted (· ≤ ·)) :
    (∀ x ∈ pending, target ≤ x)
    ∧ ((runStreamIterStep false pending hasStream current spawnOk = IterStep.restartSpawned target
        ∨ runStreamIterStep false pending hasStream current spawnOk = IterStep.restartFallback)
       ↔ (hasStream = false ∨ target < current ∨ target - current > STREAM_RESTART_GAP))
    ∧ ((hasStream = false ∨ target < current ∨ target - current > STREAM_RESTART_GAP) →
        spawnOk = true →
        runStreamIterStep false pending hasStream current spawnOk
          = IterStep.restartSpawned target)
    ∧ (¬ (hasStream = false ∨ target < current ∨ target - current > STREAM_RESTART_GAP) →
        runStreamIterStep false pending hasStream current spawnOk
          = IterStep.advance current target) := by
  cases pending with
  | nil => simp at hmin
  | cons a rest =>
    have ha : a = target := by simpa using hmin
    subst ha
    have hstep : runStreamIterStep false (a :: rest) hasStream current spawnOk
        = if decideRestart hasStream a current then
            (if spawnOk then IterStep.restartSpawned a else IterStep.restartFallback)
          else IterStep.advance current a := by
      simp [runStreamIterStep]
    refine ⟨?minp, ?iffp, ?spawnp, ?advp⟩
    case minp =>
      intro x hx
      rcases List.mem_cons.mp hx with h | h
      · omega
      · exact (List.sorted_cons.mp hsorted).1 x h
    case iffp =>
      rw [hstep]
      by_cases hd : decideRestart hasStream a current = true
      · rw [if_pos hd]
        have hc := (decideRestart_iff hasStream a current).mp hd
        cases spawnOk <;> simp [hc]
      · rw [if_neg hd]
        have hc : ¬ (hasStream = false ∨ a < current ∨ a - current > STREAM_RESTART_GAP) :=
          fun hcon => hd ((decideRestart_iff hasStream a current).mpr hcon)
        simp [hc]
    case spawnp =>
      intro hc hok
      rw [hstep, if_pos ((decideRestart_iff hasStream a current).mpr hc), hok]
      simp
    case advp =>
      intro hc
      have hd : ¬ decideRestart hasStream a current = true :=
        fun h => hc ((decideRestart_iff hasStream a current).mp h)
      rw [hstep, if_neg hd]

/-- Witness for C3 at the spec's own scenario: stream active at frame 10,
request 101, gap 91 > 90, spawn succeeding: the iteration restarts the
stream aimed at 101. -/
theorem stream_restart_decision_witness :
    runStreamIterStep false [101] true 10 true = IterStep.restartSpawned 101 :=
  (stream_restart_decision [101] true 10 true 101 rfl (by simp)).2.2.1 (by decide) rfl

/-- Claim C9: `clear_session(session_id)` removes from the registry and
closes every decoder whose key has that session id, but neither waits for
their `running_decode_tasks` to drain (the counters are untouched) nor
subtracts their cached bytes from `ENTIRE_CACHE_SIZE`: the global byte
counter is left unchanged. -/
theorem clear_session_no_drain_no_decrement (g : RegistryState) (sid : Nat) :
    (clearSession g sid).1.cacheBytes = g.cacheBytes
    ∧ (∀ kv : RegKey × RegDecoder,
        kv ∈ (clearSession g sid).1.decoders ↔ (kv ∈ g.decoders ∧ kv.1.sessionId ≠ sid))
    ∧ (∀ d ∈ (clearSession g sid).2, d.closed = true)
    ∧ (∀ kv : RegKey × RegDecoder, kv ∈ g.decoders → kv.1.sessionId = sid →
        (⟨true, kv.2.running⟩ : RegDecoder) ∈ (clearSession g sid).2) := by
  refine ⟨rfl, ?mem, ?closedp, ?runp⟩
  case mem =>
    intro kv
    simp [clearSession, List.mem_filter]
  case closedp =>
    intro d hd
    simp only [clearSession, List.mem_map] at hd
    obtain ⟨kv, _, hkv⟩ := hd
    rw [← hkv]
    rfl
  case runp =>
    intro kv hkv hsid
    simp only [clearSession, List.mem_map]
    refine ⟨kv, ?inf, rfl⟩
    rw [List.mem_filter]
    exact ⟨hkv, by simp [hsid]⟩

/-- Witness for C9 at a registry holding one decoder of session 7 with two
running decode tasks and a nonzero byte counter. -/
theorem clear_session_no_drain_no_decrement_witness :
    (clearSession ⟨[(⟨"v.mp4", 640, 360, 7⟩, ⟨false, 2⟩)], 12345⟩ 7).1.cacheBytes = 12345
    ∧ (⟨true, 2⟩ : RegDecoder)
        ∈ (clearSession ⟨[(⟨"v.mp4", 640, 360, 7⟩, ⟨false, 2⟩)], 12345⟩ 7).2 := by
  have h := clear_session_no_drain_no_decrement
    ⟨[(⟨"v.mp4", 640, 360, 7⟩, ⟨false, 2⟩)], 12345⟩ 7
  exact ⟨h.1, h.2.2.2 (⟨"v.mp4", 640, 360, 7⟩, ⟨false, 2⟩) (by simp) rfl⟩

theorem clearPollLoop_spec (sched : Nat → List Nat) :
    ∀ (fuel t0 t : Nat), clearPollLoop sched fuel t0 = some t →
      t0 ≤ t ∧ (∀ r ∈ sched t, r = 0)
        ∧ (∀ u, t0 ≤ u → u < t → ∃ r ∈ sched u, r ≠ 0) := by
  intro fuel
  induction fuel with
  | zero => intro t0 t h; simp [clearPollLoop] at h
  | succ n ih =>
    intro t0 t h
    simp only [clearPollLoop] at h
    by_cases hz : (sched t0).all (fun r => decide (r = 0)) = true
    · rw [if_pos hz] at h
      obtain rfl : t0 = t := by simpa using h
      refine ⟨le_refl t0, ?zeros, ?before⟩
      case zeros =>
        intro r hr
        have := List.all_eq_true.mp hz r hr
        simpa using this
      case before =>
        intro u hu1 hu2
        omega
    · rw [if_neg hz] at h
      obtain ⟨h1, h2, h3⟩ := ih (t0 + 1) t h
      refine ⟨by omega, h2, ?before⟩
      case before =>
        intro u hu1 hu2
        by_cases he : u = t0
        · subst he
          have := List.all_eq_true.not.mp hz
          push_neg at this
          obtain ⟨r, hr, hne⟩ := this
          exact ⟨r, hr, by simpa using hne⟩
        · exact h3 u (by omega) hu2

/-- Claim C8: when `clear()` returns it has swapped the registry out, closed
every removed decoder, polled (50 ms ticks) until the first tick at which
every removed decoder's `running_decode_tasks` is 0, and stored 0 into the
global byte counter; so at return `ENTIRE_CACHE_SIZE = 0` and all former
decoders' running counters are 0. -/
theorem registry_clear_drains_and_zeroes (g : RegistryState) (sched : Nat → List Nat)
    (fuel : Nat) (g1 : RegistryState) (removed : List RegDecoder) (t : Nat)
    (h : registryClear g sched fuel = some (g1, removed, t)) :
    g1.cacheBytes = 0
    ∧ g1.decoders = []
    ∧ removed = g.decoders.map (fun kv => closeRegDecoder kv.2)
    ∧ (∀ d ∈ removed, d.closed = true)
    ∧ (∀ r ∈ sched t, r = 0)
    ∧ (∀ u, u < t → ∃ r ∈ sched u, r ≠ 0) := by
  simp only [registryClear] at h
  cases hp : clearPollLoop sched fuel 0 with
  | none => rw [hp] at h; cases h
  | some t1 =>
    rw [hp] at h
    obtain ⟨hg, hrem, ht⟩ : g1 = { decoders := [], cacheBytes := 0 }
        ∧ removed = g.decoders.map (fun kv => closeRegDecoder kv.2) ∧ t1 = t := by
      have := h
      simp at this
      exact ⟨this.1.symm, this.2.1.symm, this.2.2⟩
    subst hg
    subst ht
    obtain ⟨_, hz, hbefore⟩ := clearPollLoop_spec sched fuel 0 t1 hp
    refine ⟨rfl, rfl, hrem, ?closedp, hz, fun u hu => hbefore u (Nat.zero_le u) hu⟩
    case closedp =>
      intro d hd
      rw [hrem] at hd
      simp only [List.mem_map] at hd
      obtain ⟨kv, _, hkv⟩ := hd
      rw [← hkv]
      rfl

/-- Witness for C8: one decoder of session 0, counter 99, schedule already
drained at tick 0. -/
theorem registry_clear_drains_and_zeroes_witness :
    (({ decoders := [], cacheBytes := 0 } : RegistryState)).cacheBytes = 0
    ∧ (∀ r ∈ (fun _ : Nat => ([0] : List Nat)) 0, r = 0) := by
  have h := registry_clear_drains_and_zeroes
    ⟨[(⟨"v.mp4", 640, 360, 0⟩, ⟨false, 1⟩)], 99⟩ (fun _ => [0]) 1
    { decoders := [], cacheBytes := 0 } [⟨true, 1⟩] 0 rfl
  exact ⟨h.1, h.2.2.2.2.1⟩

theorem removeElem_mem_iff (x y : Nat) (h : y ≠ x) :
    ∀ l : List Nat, (y ∈ (removeElem l x).1 ↔ y ∈ l) := by
  intro l
  induction l with
  | nil => simp [removeElem]
  | cons a rest ih =>
    by_cases hax : a = x
    · subst hax
      simp [removeElem, h]
    · simp [removeElem, hax, ih]

theorem removeElem_self_not_mem (x : Nat) :
    ∀ l : List Nat, l.Nodup → x ∉ (removeElem l x).1 := by
  intro l
  induction l with
  | nil => simp [removeElem]
  | cons a rest ih =>
    intro hnd
    by_cases hax : a = x
    · subst hax
      simp only [removeElem, if_pos rfl]
      exact (List.nodup_cons.mp hnd).1
    · intro hmem
      simp only [removeElem, if_neg hax, List.mem_cons] at hmem
      rcases hmem with h | h
      · exact hax h.symm
      · exact ih (List.nodup_cons.mp hnd).2 h

theorem nearestPredecessor_some (frames : List (Nat × Cell)) :
    ∀ i v, nearestPredecessor frames i = some v →
      ∃ j, j < i ∧ lookupKey j frames = some (some v)
        ∧ ∀ k, j < k → k < i → ∀ u, lookupKey k frames ≠ some (some u) := by
  intro i
  induction i with
  | zero => intro v h; simp [nearestPredecessor] at h
  | succ n ih =>
    intro v h
    cases hl : lookupKey n frames with
    | none =>
      simp only [nearestPredecessor, hl] at h
      obtain ⟨j, hj1, hj2, hj3⟩ := ih v h
      refine ⟨j, by omega, hj2, fun k hk1 hk2 u => ?ne⟩
      case ne =>
        by_cases he : k = n
        · subst he; rw [hl]; simp
        · exact hj3 k hk1 (by omega) u
    | some c =>
      cases c with
      | none =>
        simp only [nearestPredecessor, hl] at h
        obtain ⟨j, hj1, hj2, hj3⟩ := ih v h
        refine ⟨j, by omega, hj2, fun k hk1 hk2 u => ?ne2⟩
        case ne2 =>
          by_cases he : k = n
          · subst he; rw [hl]; simp
          · exact hj3 k hk1 (by omega) u
      | some w =>
        simp only [nearestPredecessor, hl] at h
        obtain rfl : w = v := by simpa using h
        exact ⟨n, by omega, hl, fun k hk1 hk2 u => by omega⟩

theorem nearestPredecessor_none (frames : List (Nat × Cell)) :
    ∀ i, nearestPredecessor frames i = none →
      ∀ j, j < i → ∀ u, lookupKey j frames ≠ some (some u) := by
  intro i
  induction i with
  | zero => intro _ j hj; omega
  | succ n ih =>
    intro h j hj u
    cases hl : lookupKey n frames with
    | none =>
      simp only [nearestPredecessor, hl] at h
      by_cases he : j = n
      · subst he; rw [hl]; simp
      · exact ih h j (by omega) u
    | some c =>
      cases c with
      | none =>
        simp only [nearestPredecessor, hl] at h
        by_cases he : j = n
        · subst he; rw [hl]; simp
        · exact ih h j (by omega) u
      | some w =>
        simp only [nearestPredecessor, hl] at h
        exact absurd h (by simp)

/-- Claim C4: inside `get_frame(i)`, a 1-second window that times out while
`running_decode_tasks > 0` keeps waiting; one that times out at
`running_decode_tasks = 0` removes `i` from `pending_frames` and returns the
nearest completed predecessor below `i` from the cache, or — when no
completed predecessor exists — a synthesised empty frame of the decoder's
`width*height*4` resolution. -/
theorem get_frame_timeout_fallback (s : DecState) (i r : Nat) (rest : List TickObs)
    (hnd : s.pending.Nodup) :
    (awaitFrame s i (TickObs.timeout (r + 1) :: rest) = awaitFrame s i rest)
    ∧ (awaitFrame s i (TickObs.timeout 0 :: rest)
        = some (fallbackFrame { s with pending := (removeElem s.pending i).1 } i,
                { s with pending := (removeElem s.pending i).1 }))
    ∧ i ∉ (removeElem s.pending i).1
    ∧ (∀ x, x ≠ i → (x ∈ (removeElem s.pending i).1 ↔ x ∈ s.pending))
    ∧ (∀ v, nearestPredecessor s.frames i = some v →
        fallbackFrame { s with pending := (removeElem s.pending i).1 } i = v
        ∧ ∃ j, j < i ∧ lookupKey j s.frames = some (some v)
            ∧ ∀ k, j < k → k < i → ∀ u, lookupKey k s.frames ≠ some (some u))
    ∧ (nearestPredecessor s.frames i = none →
        (∀ j, j < i → ∀ u, lookupKey j s.frames ≠ some (some u))
        ∧ fallbackFrame { s with pending := (removeElem s.pending i).1 } i
            = DecoderRs.generate_empty_frame s.width s.height
        ∧ (s.width * s.height * 4 < U32 →
            (DecoderRs.generate_empty_frame s.width s.height).length
              = s.width * s.height * 4)) := by
  refine ⟨by simp [awaitFrame], by simp [awaitFrame], removeElem_self_not_mem i s.pending hnd,
    fun x hx => removeElem_mem_iff i x hx s.pending, ?somec, ?nonec⟩
  case somec =>
    intro v hv
    constructor
    · simp only [fallbackFrame]
      rw [show ({ s with pending := (removeElem s.pending i).1 } : DecState).frames
          = s.frames from rfl, hv]
    · exact nearestPredecessor_some s.frames i v hv
  case nonec =>
    intro hv
    refine ⟨nearestPredecessor_none s.frames i hv, ?fb, ?len⟩
    case fb =>
      simp only [fallbackFrame]
      rw [show ({ s with pending := (removeElem s.pending i).1 } : DecState).frames
          = s.frames from rfl, hv]
    case len =>
      intro hb
      exact red_frame_length s.width s.height hb

/-- Witness for C4: a decoder whose cache holds a completed frame 0 and a
pending frame 2; the first window for frame 2 times out with no running
decode task, so frame 2 is dropped from pending and frame 0's bytes come
back. -/
theorem get_frame_timeout_fallback_witness :
    (awaitFrame ⟨1, 1, [(0, some [9, 9, 9, 9]), (2, none)], [2], none, [], false, false, 0, 100⟩ 2
        [TickObs.timeout 0]
      = some (fallbackFrame
                ⟨1, 1, [(0, some [9, 9, 9, 9]), (2, none)], [], none, [], false, false, 0, 100⟩ 2,
              ⟨1, 1, [(0, some [9, 9, 9, 9]), (2, none)], [], none, [], false, false, 0, 100⟩))
    ∧ fallbackFrame
        ⟨1, 1, [(0, some [9, 9, 9, 9]), (2, none)], [], none, [], false, false, 0, 100⟩ 2
      = [9, 9, 9, 9] := by
  have h := get_frame_timeout_fallback
    ⟨1, 1, [(0, some [9, 9, 9, 9]), (2, none)], [2], none, [], false, false, 0, 100⟩ 2 0 []
    (by simp)
  exact ⟨h.2.1, (h.2.2.2.2.1 [9, 9, 9, 9] rfl).1⟩

theorem lookupKey_eraseKey_ne (x j : Nat) (h : j ≠ x) :
    ∀ f : List (Nat × Cell), lookupKey j (eraseKey x f) = lookupKey j f := by
  intro f
  induction f with
  | nil => simp [eraseKey]
  | cons kv rest ih =>
    obtain ⟨k, c⟩ := kv
    by_cases hk : k = x
    · subst hk
      have hkj : ¬ k = j := fun he => h he.symm
      simp [eraseKey, lookupKey, hkj]
    · by_cases hkj : k = j
      · subst hkj
        simp [eraseKey, lookupKey, hk]
      · simp [eraseKey, lookupKey, hk, hkj, ih]

theorem popLoop_len (p : Option Nat) :
    ∀ (r : List Nat) (f : List (Nat × Cell)) (c : Nat),
      (popLoop p r f c).1.length ≤ RECENT_FRAME_CACHE := by
  intro r
  induction r with
  | nil => intro f c; simp [popLoop]
  | cons a rest ih =>
    intro f c
    by_cases hlen : (a :: rest).length > RECENT_FRAME_CACHE
    · simp only [popLoop, if_pos hlen]
      by_cases hp : some a = p
      · rw [if_pos hp]; exact ih f c
      · rw [if_neg hp]
        cases hl : lookupKey a f with
        | none => exact ih f c
        | some c1 => exact ih _ _
    · simp only [popLoop, if_neg hlen]
      omega

theorem popLoop_last (p : Option Nat) :
    ∀ (r : List Nat) (f : List (Nat × Cell)) (c : Nat), r ≠ [] →
      (popLoop p r f c).1.getLast? = r.getLast? := by
  intro r
  induction r with
  | nil => intro f c h; exact absurd rfl h
  | cons a rest ih =>
    intro f c _
    by_cases hlen : (a :: rest).length > RECENT_FRAME_CACHE
    · have hrest : rest ≠ [] := by
        intro he
        rw [he] at hlen
        simp [RECENT_FRAME_CACHE] at hlen
      have hlast : (a :: rest).getLast? = rest.getLast? := by
        cases rest with
        | nil => exact absurd rfl hrest
        | cons b t => exact List.getLast?_cons_cons
      rw [hlast]
      simp only [popLoop, if_pos hlen]
      by_cases hp : some a = p
      · rw [if_pos hp]; exact ih f c hrest
      · rw [if_neg hp]
        cases hl : lookupKey a f with
        | none => exact ih f c hrest
        | some c1 => exact ih _ _ hrest
    · simp only [popLoop, if_neg hlen]

theorem getLast?_mem_of_eq : ∀ (l : List Nat) (a : Nat), l.getLast? = some a → a ∈ l := by
  intro l
  induction l with
  | nil => intro a h; simp at h
  | cons b rest ih =>
    intro a h
    cases rest with
    | nil =>
      simp only [List.getLast?_singleton] at h
      obtain rfl : b = a := by simpa using h
      simp
    | cons b2 t =>
      rw [List.getLast?_cons_cons] at h
      exact List.mem_cons.mpr (Or.inr (ih a h))

theorem popLoop_erased (p : Option Nat) :
    ∀ (r : List Nat) (f : List (Nat × Cell)) (c j : Nat),
      lookupKey j (popLoop p r f c).2.1 = none →
      lookupKey j f = none ∨ (j ∈ r ∧ some j ≠ p) := by
  intro r
  induction r with
  | nil => intro f c j h; simp only [popLoop] at h; exact Or.inl h
  | cons a rest ih =>
    intro f c j h
    by_cases hlen : (a :: rest).length > RECENT_FRAME_CACHE
    · simp only [popLoop, if_pos hlen] at h
      by_cases hp : some a = p
      · rw [if_pos hp] at h
        rcases ih f c j h with h1 | h1
        · exact Or.inl h1
        · exact Or.inr ⟨List.mem_cons.mpr (Or.inr h1.1), h1.2⟩
      · rw [if_neg hp] at h
        cases hl : lookupKey a f with
        | none =>
          rw [hl] at h
          rcases ih f c j h with h1 | h1
          · exact Or.inl h1
          · exact Or.inr ⟨List.mem_cons.mpr (Or.inr h1.1), h1.2⟩
        | some c1 =>
          rw [hl] at h
          rcases ih _ _ j h with h1 | h1
          · by_cases hja : j = a
            · subst hja
              exact Or.inr ⟨List.mem_cons.mpr (Or.inl rfl), hp⟩
            · rw [lookupKey_eraseKey_ne a j hja f] at h1
              exact Or.inl h1
          · exact Or.inr ⟨List.mem_cons.mpr (Or.inr h1.1), h1.2⟩
    · simp only [popLoop, if_neg hlen] at h
      exact Or.inl h

/-- The recency update exactly as claim C6 words it: for a non-pinned `i`
the index is pushed onto the back of `recent_frames` unconditionally, then
the over-capacity pops run.  (The code differs: it skips the push when the
back of the queue is already `i`.) -/
def finishFrameClaimed (s : DecState) (i : Nat) (frame : Frame) : Frame × DecState :=
  if some i = s.pinned then (frame, s)
  else
    let out := popLoop s.pinned (s.recent ++ [i]) s.frames s.cacheBytes
    (frame, { s with recent := out.1, frames := out.2.1, cacheBytes := out.2.2 })

/-- Counterexample to claim C6 as stated: with `recent_frames = [5]` and a
non-pinned call `finish_frame(5, ..)`, the code leaves the queue at `[5]`
(the back already equals the index, so nothing is pushed), while the claimed
unconditional push would leave `[5, 5]`. -/
theorem finish_frame_push_counterexample :
    (finishFrame ⟨1, 1, [], [], none, [5], false, false, 0, 100⟩ 5 [1, 2, 3, 4]).2.recent = [5]
    ∧ (finishFrameClaimed ⟨1, 1, [], [], none, [5], false, false, 0, 100⟩ 5
        [1, 2, 3, 4]).2.recent = [5, 5]
    ∧ ([5] : List Nat) ≠ [5, 5] := by
  refine ⟨rfl, rfl, by decide⟩

/-- Claim C6 (amended): `finish_frame(i, bytes)` returns the bytes
unchanged; for a pinned `i` it does nothing; for a non-pinned `i` it pushes
`i` onto the back of `recent_frames` unless the back already equals `i`, and
then, while the queue holds more than `RECENT_FRAME_CACHE = 6` entries, pops
the front, removing each popped non-pinned index from the frames map (with
the byte-counter decrement for completed cells) as `popLoop` performs it.
Afterwards the queue has at most 6 entries and, for non-pinned `i`,
contains `i`; every index whose map entry disappeared was a non-pinned
member of the pushed queue. -/
theorem finish_frame_amended (s : DecState) (i : Nat) (f : Frame) :
    (finishFrame s i f).1 = f
    ∧ (some i = s.pinned → (finishFrame s i f).2 = s)
    ∧ (some i ≠ s.pinned → s.recent.getLast? ≠ some i →
        ((finishFrame s i f).2.recent, (finishFrame s i f).2.frames,
         (finishFrame s i f).2.cacheBytes)
          = popLoop s.pinned (s.recent ++ [i]) s.frames s.cacheBytes)
    ∧ (some i ≠ s.pinned → s.recent.getLast? = some i →
        ((finishFrame s i f).2.recent, (finishFrame s i f).2.frames,
         (finishFrame s i f).2.cacheBytes)
          = popLoop s.pinned s.recent s.frames s.cacheBytes)
    ∧ (some i ≠ s.pinned →
        (finishFrame s i f).2.recent.length ≤ RECENT_FRAME_CACHE
        ∧ i ∈ (finishFrame s i f).2.recent)
    ∧ (∀ j, lookupKey j s.frames ≠ none →
        lookupKey j (finishFrame s i f).2.frames = none →
        some j ≠ s.pinned ∧ j ∈ s.recent ++ [i]) := by
  by_cases hp : some i = s.pinned
  · refine ⟨by simp [finishFrame, hp], fun _ => by simp [finishFrame, hp],
      fun h _ => absurd hp h, fun h _ => absurd hp h, fun h => absurd hp h, ?remc⟩
    case remc =>
      intro j hne hnone
      rw [show (finishFrame s i f).2 = s by simp [finishFrame, hp]] at hnone
      exact absurd hnone hne
  · have hout : (finishFrame s i f).2.recent
          = (popLoop s.pinned (if s.recent.getLast? = some i then s.recent
              else s.recent ++ [i]) s.frames s.cacheBytes).1
        ∧ (finishFrame s i f).2.frames
          = (popLoop s.pinned (if s.recent.getLast? = some i then s.recent
              else s.recent ++ [i]) s.frames s.cacheBytes).2.1
        ∧ (finishFrame s i f).2.cacheBytes
          = (popLoop s.pinned (if s.recent.getLast? = some i then s.recent
              else s.recent ++ [i]) s.frames s.cacheBytes).2.2 := by
      simp [finishFrame, hp]
    refine ⟨by simp [finishFrame, hp], fun h => absurd h hp, ?pushc, ?nopushc, ?boundc, ?remc⟩
    case pushc =>
      intro _ hlast
      rw [hout.1, hout.2.1, hout.2.2, if_neg hlast]
    case nopushc =>
      intro _ hlast
      rw [hout.1, hout.2.1, hout.2.2, if_pos hlast]
    case boundc =>
      intro _
      rw [hout.1]
      constructor
      · exact popLoop_len s.pinned _ s.frames s.cacheBytes
      · by_cases hlast : s.recent.getLast? = some i
        · rw [if_pos hlast]
          refine getLast?_mem_of_eq _ i ?gl
          rw [popLoop_last s.pinned s.recent s.frames s.cacheBytes ?ne]
          · exact hlast
          · intro he
            rw [he] at hlast
            simp at hlast
        · rw [if_neg hlast]
          refine getLast?_mem_of_eq _ i ?gl2
          rw [popLoop_last s.pinned (s.recent ++ [i]) s.frames s.cacheBytes (by simp)]
          simp
    case remc =>
      intro j hne hnone
      rw [hout.2.1] at hnone
      rcases popLoop_erased s.pinned _ s.frames s.cacheBytes j hnone with h1 | h1
      · exact absurd h1 hne
      · refine ⟨h1.2, ?memp⟩
        by_cases hlast : s.recent.getLast? = some i
        · rw [if_pos hlast] at h1
          exact List.mem_append.mpr (Or.inl h1.1)
        · rw [if_neg hlast] at h1
          exact h1.1

/-- Witness for the amended C6: a seven-deep recent queue `[1,..,7]` with a
completed cached frame 1 of 4 bytes; `finish_frame(8, ..)` pushes 8, pops 1,
evicts frame 1 and decrements the counter by 4, leaving six entries ending
in 8. -/
theorem finish_frame_amended_witness :
    ((finishFrame ⟨1, 1, [(1, some [7, 7, 7, 7])], [], none, [1, 2, 3, 4, 5, 6, 7], false,
        false, 10, 100⟩ 8 [0, 0, 0, 0]).2.recent.length ≤ RECENT_FRAME_CACHE
      ∧ 8 ∈ (finishFrame ⟨1, 1, [(1, some [7, 7, 7, 7])], [], none, [1, 2, 3, 4, 5, 6, 7],
          false, false, 10, 100⟩ 8 [0, 0, 0, 0]).2.recent)
    ∧ (finishFrame ⟨1, 1, [(1, some [7, 7, 7, 7])], [], none, [1, 2, 3, 4, 5, 6, 7], false,
        false, 10, 100⟩ 8 [0, 0, 0, 0]).1 = [0, 0, 0, 0] := by
  have h := finish_frame_amended
    ⟨1, 1, [(1, some [7, 7, 7, 7])], [], none, [1, 2, 3, 4, 5, 6, 7], false, false, 10, 100⟩
    8 [0, 0, 0, 0]
  exact ⟨h.2.2.2.2.1 (by simp), h.1⟩

theorem gcLoop_eq_specWalk (pend : List Nat) (pin : Option Nat) (recl : List Nat)
    (maxB : Nat) :
    ∀ (order : List Nat) (fs : List (Nat × Cell)) (c : Nat),
      gcLoop pend pin recl maxB order fs c = gcSpecWalk pend pin recl maxB order fs c := by
  intro order
  induction order with
  | nil => intro fs c; rfl
  | cons j rest ih =>
    intro fs c
    by_cases h1 : some j = pin
    · have hor : some j = pin ∨ j ∈ pend ∨ j ∈ recl := Or.inl h1
      simp only [gcLoop, gcSpecWalk, if_pos h1, if_pos hor]
      exact ih fs c
    · by_cases h2 : j ∈ pend
      · have hor : some j = pin ∨ j ∈ pend ∨ j ∈ recl := Or.inr (Or.inl h2)
        simp only [gcLoop, gcSpecWalk, if_neg h1, if_pos h2, if_pos hor]
        exact ih fs c
      · by_cases h3 : j ∈ recl
        · have hor : some j = pin ∨ j ∈ pend ∨ j ∈ recl := Or.inr (Or.inr h3)
          simp only [gcLoop, gcSpecWalk, if_neg h1, if_neg h2, if_pos h3, if_pos hor]
          exact ih fs c
        · have hor : ¬ (some j = pin ∨ j ∈ pend ∨ j ∈ recl) := by tauto
          simp only [gcLoop, gcSpecWalk, if_neg h1, if_neg h2, if_neg h3, if_neg hor]
          cases hl : lookupKey j fs with
          | none => exact ih fs c
          | some c1 =>
            cases c1 with
            | none => exact ih fs c
            | some v =>
              by_cases hlt : subU c v.length < maxB
              · simp only [if_pos hlt]
              · simp only [if_neg hlt]
                exact ih _ _

/-- Counterexample to claim C2 as stated: the GC walks
`frames.keys().rev()`, the reverse of the `HashMap`'s unspecified iteration
order, not the descending frame-index order.  With stored order
`[3, 1, 2]` (all three entries completed, one byte each, counter 3 = budget)
the code's pass visits `[2, 1, 3]` and evicts frame 2, keeping `{3, 1}`,
while a descending walk `[3, 2, 1]` over the same state would evict frame 3
and keep `{1, 2}`. -/
theorem gc_descending_counterexample :
    ((gcPass ⟨1, 1, [(3, some [9]), (1, some [8]), (2, some [7])], [], none, [], false, false,
        3, 3⟩).frames.map Prod.fst = [3, 1])
    ∧ ((gcSpecWalk [] none [] 3 [3, 2, 1]
          [(3, some [9]), (1, some [8]), (2, some [7])] 3).1.map Prod.fst = [1, 2])
    ∧ List.Sorted (· > ·) [3, 2, 1]
    ∧ ([3, 2, 1] : List Nat).Perm
        (([(3, some [9]), (1, some [8]), (2, some [7])] : List (Nat × Cell)).map Prod.fst)
    ∧ (gcPass ⟨1, 1, [(3, some [9]), (1, some [8]), (2, some [7])], [], none, [], false, false,
        3, 3⟩).frames
      ≠ (gcSpecWalk [] none [] 3 [3, 2, 1]
          [(3, some [9]), (1, some [8]), (2, some [7])] 3).1 := by
  refine ⟨rfl, rfl, by decide, by decide, by decide⟩

/-- Claim C2 (amended): on a GC pass with `entire_cache_bytes <
max_cache_bytes` nothing happens; on one with `entire_cache_bytes >=
max_cache_bytes` the task walks the cached frame indices in the *reverse of
the frames map's (unspecified) iteration order* — not necessarily descending
frame-index order — skipping pinned, pending and recent indices, removing
each visited completed entry while decrementing the byte counter by its
length, and stopping as soon as the counter drops below the budget, exactly
as the spec's §4.6 walk (`gcSpecWalk`) prescribes over that visiting
order. -/
theorem gc_pass_amended (s : DecState) :
    (s.cacheBytes < s.maxBytes → gcPass s = s)
    ∧ (s.maxBytes ≤ s.cacheBytes →
        ((gcPass s).frames, (gcPass s).cacheBytes)
          = gcSpecWalk s.pending s.pinned s.recent s.maxBytes
              ((s.frames.map Prod.fst).reverse) s.frames s.cacheBytes
        ∧ (gcPass s).pending = s.pending ∧ (gcPass s).pinned = s.pinned
        ∧ (gcPass s).recent = s.recent ∧ (gcPass s).width = s.width
        ∧ (gcPass s).height = s.height ∧ (gcPass s).maxBytes = s.maxBytes) := by
  constructor
  · intro h
    have hge : ¬ s.cacheBytes ≥ s.maxBytes := by omega
    simp [gcPass, hge]
  · intro h
    have hge : s.cacheBytes ≥ s.maxBytes := h
    simp only [gcPass, if_pos hge]
    rw [← gcLoop_eq_specWalk]
    refine ⟨rfl, ?rest⟩
    simp

/-- Witness for the amended C2 at the counterexample's cache state: the pass
runs the §4.6 walk over the reversed stored order `[2, 1, 3]`. -/
theorem gc_pass_amended_witness :
    ((gcPass ⟨1, 1, [(3, some [9]), (1, some [8]), (2, some [7])], [], none, [], false, false,
        3, 3⟩).frames,
     (gcPass ⟨1, 1, [(3, some [9]), (1, some [8]), (2, some [7])], [], none, [], false, false,
        3, 3⟩).cacheBytes)
      = gcSpecWalk [] none [] 3
          (([(3, some [9]), (1, some [8]), (2, some [7])].map Prod.fst).reverse)
          [(3, some [9]), (1, some [8]), (2, some [7])] 3 :=
  ((gc_pass_amended ⟨1, 1, [(3, some [9]), (1, some [8]), (2, some [7])], [], none, [], false,
      false, 3, 3⟩).2 (by decide)).1

theorem removeElem_present (x : Nat) :
    ∀ l : List Nat, x ∈ l → (removeElem l x).2 = true := by
  intro l
  induction l with
  | nil => intro h; simp at h
  | cons a rest ih =>
    intro h
    by_cases hax : a = x
    · simp [removeElem, hax]
    · have hx : x ∈ rest := by
        rcases List.mem_cons.mp h with h1 | h1
        · exact absurd h1.symm hax
        · exact h1
      simp [removeElem, hax, ih hx]

theorem removeElem_nodup (x : Nat) :
    ∀ l : List Nat, l.Nodup → (removeElem l x).1.Nodup := by
  intro l
  induction l with
  | nil => intro _; simp [removeElem]
  | cons a rest ih =>
    intro hnd
    by_cases hax : a = x
    · simp only [removeElem, if_pos hax]
      exact (List.nodup_cons.mp hnd).2
    · simp only [removeElem, if_neg hax]
      refine List.nodup_cons.mpr ⟨?nm, ih (List.nodup_cons.mp hnd).2⟩
      case nm =>
        intro hmem
        by_cases hx : a = x
        · exact hax hx
        · exact (List.nodup_cons.mp hnd).1 ((removeElem_mem_iff x a hx rest).mp hmem)

theorem lookupKey_setKey_ne (i j : Nat) (c : Cell) (h : j ≠ i) :
    ∀ f : List (Nat × Cell), lookupKey j (setKey i c f) = lookupKey j f := by
  intro f
  induction f with
  | nil => simp [setKey]
  | cons kv rest ih =>
    obtain ⟨k, d⟩ := kv
    by_cases hk : k = i
    · subst hk
      have hkj : ¬ k = j := fun he => h he.symm
      simp [setKey, lookupKey, hkj]
    · by_cases hkj : k = j
      · subst hkj
        simp [setKey, lookupKey, hk]
      · simp [setKey, lookupKey, hk, hkj, ih]

theorem lookupKey_setKey_self (i : Nat) (c : Cell) :
    ∀ f : List (Nat × Cell), lookupKey i f ≠ none → lookupKey i (setKey i c f) = some c := by
  intro f
  induction f with
  | nil => intro h; simp [lookupKey] at h
  | cons kv rest ih =>
    intro h
    obtain ⟨k, d⟩ := kv
    by_cases hk : k = i
    · simp [setKey, lookupKey, hk]
    · simp only [setKey, if_neg hk, lookupKey]
      refine ih ?ne
      simpa [lookupKey, hk] using h

/-- The total byte length `complete_pending_with_fallback` will add for the
given still-pending frames, computed against a fixed frames map. -/
def fallbackAddedBytes (singleShot : Nat → Option Frame) (w h : Nat)
    (frames : List (Nat × Cell)) : List Nat → Nat
  | [] => 0
  | i :: rest =>
    (match lookupKey i frames with
     | some Option.none =>
       ((singleShot i).getD (DecoderRs.generate_empty_frame w h)).length
     | _ => 0) + fallbackAddedBytes singleShot w h frames rest

theorem fallbackAddedBytes_congr (singleShot : Nat → Option Frame) (w h : Nat)
    (f1 f2 : List (Nat × Cell)) :
    ∀ l : List Nat, (∀ k ∈ l, lookupKey k f1 = lookupKey k f2) →
      fallbackAddedBytes singleShot w h f1 l = fallbackAddedBytes singleShot w h f2 l := by
  intro l
  induction l with
  | nil => intro _; rfl
  | cons i rest ih =>
    intro hk
    simp only [fallbackAddedBytes]
    rw [hk i (List.mem_cons.mpr (Or.inl rfl)),
      ih (fun k hk2 => hk k (List.mem_cons.mpr (Or.inr hk2)))]

theorem fallback_fold_spec (singleShot : Nat → Option Frame) :
    ∀ (todo : List Nat) (st : DecState),
      todo.Nodup → st.pending.Nodup → (∀ i ∈ todo, i ∈ st.pending) →
      ((todo.foldl (fallbackStep singleShot) st).width = st.width
      ∧ (todo.foldl (fallbackStep singleShot) st).height = st.height
      ∧ (todo.foldl (fallbackStep singleShot) st).pinned = st.pinned
      ∧ (todo.foldl (fallbackStep singleShot) st).pending.Nodup
      ∧ (∀ x, x ∈ (todo.foldl (fallbackStep singleShot) st).pending
            ↔ (x ∈ st.pending ∧ x ∉ todo))
      ∧ (∀ i2, i2 ∈ todo → lookupKey i2 st.frames = some Option.none →
          lookupKey i2 (todo.foldl (fallbackStep singleShot) st).frames
            = some (some ((singleShot i2).getD
                (DecoderRs.generate_empty_frame st.width st.height))))
      ∧ (∀ j, j ∉ todo →
          lookupKey j (todo.foldl (fallbackStep singleShot) st).frames
            = lookupKey j st.frames)
      ∧ (∀ i2, i2 ∈ todo → lookupKey i2 st.frames ≠ some Option.none →
          lookupKey i2 (todo.foldl (fallbackStep singleShot) st).frames
            = lookupKey i2 st.frames)
      ∧ (st.cacheBytes
            + fallbackAddedBytes singleShot st.width st.height st.frames todo < U64 →
          (todo.foldl (fallbackStep singleShot) st).cacheBytes
            = st.cacheBytes
              + fallbackAddedBytes singleShot st.width st.height st.frames todo)) := by
  intro todo
  induction todo with
  | nil =>
    intro st _ hpnd _
    refine ⟨rfl, rfl, rfl, hpnd, by simp, by simp, fun j _ => rfl, by simp,
      by simp [fallbackAddedBytes]⟩
  | cons i rest ih =>
    intro st hnd hpnd hmem
    have hiP : i ∈ st.pending := hmem i (List.mem_cons.mpr (Or.inl rfl))
    have hndr : rest.Nodup := (List.nodup_cons.mp hnd).2
    have hinr : i ∉ rest := (List.nodup_cons.mp hnd).1
    have hrem2 : (removeElem st.pending i).2 = true := removeElem_present i st.pending hiP
    have hstep : (fallbackStep singleShot st i).width = st.width
        ∧ (fallbackStep singleShot st i).height = st.height
        ∧ (fallbackStep singleShot st i).pinned = st.pinned
        ∧ (fallbackStep singleShot st i).pending = (removeElem st.pending i).1
        ∧ (lookupKey i st.frames = some Option.none →
            (fallbackStep singleShot st i).frames
              = setKey i (some ((singleShot i).getD
                  (DecoderRs.generate_empty_frame st.width st.height))) st.frames
            ∧ (fallbackStep singleShot st i).cacheBytes
              = addU st.cacheBytes ((singleShot i).getD
                  (DecoderRs.generate_empty_frame st.width st.height)).length)
        ∧ (lookupKey i st.frames ≠ some Option.none →
            (fallbackStep singleShot st i).frames = st.frames
            ∧ (fallbackStep singleShot st i).cacheBytes = st.cacheBytes) := by
      cases hli : lookupKey i st.frames with
      | none => simp [fallbackStep, hrem2, hli]
      | some c1 =>
        cases c1 with
        | none => simp [fallbackStep, hrem2, hli]
        | some v => simp [fallbackStep, hrem2, hli]
    obtain ⟨hw, hh, hpin, hpend, hsome, hnone⟩ := hstep
    have hlk : ∀ k, k ≠ i →
        lookupKey k (fallbackStep singleShot st i).frames = lookupKey k st.frames := by
      intro k hk
      by_cases hli : lookupKey i st.frames = some Option.none
      · rw [(hsome hli).1]
        exact lookupKey_setKey_ne i k _ hk st.frames
      · rw [(hnone hli).1]
    have hpend1 : ∀ x, x ∈ (fallbackStep singleShot st i).pending
        ↔ (x ∈ st.pending ∧ x ≠ i) := by
      intro x
      rw [hpend]
      by_cases hx : x = i
      · subst hx
        simp [removeElem_self_not_mem x st.pending hpnd]
      · simp [removeElem_mem_iff i x hx st.pending, hx]
    have hnd1 : (fallbackStep singleShot st i).pending.Nodup := by
      rw [hpend]
      exact removeElem_nodup i st.pending hpnd
    have hmem1 : ∀ k ∈ rest, k ∈ (fallbackStep singleShot st i).pending := by
      intro k hk
      have hkne : k ≠ i := fun he => hinr (he ▸ hk)
      exact (hpend1 k).mpr ⟨hmem k (List.mem_cons.mpr (Or.inr hk)), hkne⟩
    obtain ⟨ihw, ihh, ihpin, ihnd, ihpend, ihsomec, ihout, ihne, ihcount⟩ :=
      ih (fallbackStep singleShot st i) hndr hnd1 hmem1
    have hfold : (i :: rest).foldl (fallbackStep singleShot) st
        = rest.foldl (fallbackStep singleShot) (fallbackStep singleShot st i) := rfl
    rw [hfold]
    refine ⟨by rw [ihw, hw], by rw [ihh, hh], by rw [ihpin, hpin], ihnd,
      ?pendc, ?headc, ?outc, ?nec, ?countc⟩
    case pendc =>
      intro x
      rw [ihpend x]
      constructor
      · rintro ⟨hx1, hx2⟩
        obtain ⟨hxp, hxne⟩ := (hpend1 x).mp hx1
        refine ⟨hxp, ?nm⟩
        intro hcon
        rcases List.mem_cons.mp hcon with he | hr
        · exact hxne he
        · exact hx2 hr
      · rintro ⟨hx1, hx2⟩
        have hxne : x ≠ i := fun he => hx2 (List.mem_cons.mpr (Or.inl he))
        have hxr : x ∉ rest := fun hr => hx2 (List.mem_cons.mpr (Or.inr hr))
        exact ⟨(hpend1 x).mpr ⟨hx1, hxne⟩, hxr⟩
    case headc =>
      intro i2 hi2 hli2
      rcases List.mem_cons.mp hi2 with he | hr
      · subst he
        rw [ihout i2 hinr, (hsome hli2).1]
        exact lookupKey_setKey_self i2 _ st.frames (by simp [hli2])
      · have hne2 : i2 ≠ i := fun he => hinr (he ▸ hr)
        have hli2b : lookupKey i2 (fallbackStep singleShot st i).frames
            = some Option.none := by
          rw [hlk i2 hne2]
          exact hli2
        rw [← hw, ← hh]
        exact ihsomec i2 hr hli2b
    case outc =>
      intro j hj
      have hjne : j ≠ i := fun he => hj (List.mem_cons.mpr (Or.inl he))
      have hjr : j ∉ rest := fun hr => hj (List.mem_cons.mpr (Or.inr hr))
      rw [ihout j hjr, hlk j hjne]
    case nec =>
      intro i2 hi2 hli2
      rcases List.mem_cons.mp hi2 with he | hr
      · subst he
        rw [ihout i2 hinr, (hnone hli2).1]
      · have hne2 : i2 ≠ i := fun he => hinr (he ▸ hr)
        have hli2b : lookupKey i2 (fallbackStep singleShot st i).frames
            ≠ some Option.none := by
          rw [hlk i2 hne2]
          exact hli2
        rw [ihne i2 hr hli2b, hlk i2 hne2]
    case countc =>
      intro hbound
      have hcongr : fallbackAddedBytes singleShot (fallbackStep singleShot st i).width
            (fallbackStep singleShot st i).height (fallbackStep singleShot st i).frames rest
          = fallbackAddedBytes singleShot st.width st.height st.frames rest := by
        rw [hw, hh]
        exact fallbackAddedBytes_congr singleShot st.width st.height _ st.frames rest
          (fun k hk => hlk k (fun he => hinr (he ▸ hk)))
      by_cases hli : lookupKey i st.frames = some Option.none
      · have hsum : fallbackAddedBytes singleShot st.width st.height st.frames (i :: rest)
            = ((singleShot i).getD
                (DecoderRs.generate_empty_frame st.width st.height)).length
              + fallbackAddedBytes singleShot st.width st.height st.frames rest := by
          simp only [fallbackAddedBytes, hli]
        rw [hsum] at hbound ⊢
        have haddU : addU st.cacheBytes ((singleShot i).getD
              (DecoderRs.generate_empty_frame st.width st.height)).length
            = st.cacheBytes + ((singleShot i).getD
              (DecoderRs.generate_empty_frame st.width st.height)).length :=
          addU_eq_add (by omega)
        have hc1 := (hsome hli).2
        have hfin := ihcount (by rw [hc1, haddU, hcongr]; omega)
        rw [hfin, hc1, haddU, hcongr]
        omega
      · have hsum : fallbackAddedBytes singleShot st.width st.height st.frames (i :: rest)
            = 0 + fallbackAddedBytes singleShot st.width st.height st.frames rest := by
          cases hli2 : lookupKey i st.frames with
          | none => simp only [fallbackAddedBytes, hli2]
          | some c1 =>
            cases c1 with
            | none => exact absurd hli2 hli
            | some v => simp only [fallbackAddedBytes, hli2]
        rw [hsum] at hbound ⊢
        have hc1 := (hnone hli).2
        have hfin := ihcount (by rw [hc1, hcongr]; omega)
        rw [hfin, hc1, hcongr]
        omega

/-- Claim C5: the fallback routine removes every frame currently in
`pending_frames` from the pending set and, for each such frame whose cell is
not yet completed, completes the cell with the single-shot decode result or,
when that decode fails, with the placeholder frame in which every pixel is
RGBA `(255,0,0,255)`; each completed frame's byte length is added to the
global byte counter (already-completed cells are left untouched and add
nothing). -/
theorem complete_pending_with_fallback_spec (singleShot : Nat → Option Frame)
    (s : DecState) (hnd : s.pending.Nodup) :
    (completePendingWithFallback singleShot s).pending = []
    ∧ (∀ i ∈ s.pending, lookupKey i s.frames = some Option.none →
        lookupKey i (completePendingWithFallback singleShot s).frames
          = some (some ((singleShot i).getD
              (DecoderRs.generate_empty_frame s.width s.height))))
    ∧ (∀ j v, lookupKey j s.frames = some (some v) →
        lookupKey j (completePendingWithFallback singleShot s).frames = some (some v))
    ∧ (s.width * s.height * 4 < U32 → ∀ p, p < s.width * s.height →
        pixelAt (DecoderRs.generate_empty_frame s.width s.height) p
          = (some 255, some 0, some 0, some 255))
    ∧ (s.cacheBytes
          + fallbackAddedBytes singleShot s.width s.height s.frames s.pending < U64 →
        (completePendingWithFallback singleShot s).cacheBytes
          = s.cacheBytes
            + fallbackAddedBytes singleShot s.width s.height s.frames s.pending) := by
  obtain ⟨_, _, _, _, hpend, hsomec, hout, hne, hcount⟩ :=
    fallback_fold_spec singleShot s.pending s hnd hnd (fun _ h => h)
  refine ⟨?emptyc, hsomec, ?keepc, ?redc, hcount⟩
  case emptyc =>
    refine List.eq_nil_iff_forall_not_mem.mpr ?nm
    intro x hx
    exact ((hpend x).mp hx).2 ((hpend x).mp hx).1
  case keepc =>
    intro j v hj
    show lookupKey j (s.pending.foldl (fallbackStep singleShot) s).frames = some (some v)
    by_cases hjp : j ∈ s.pending
    · rw [hne j hjp (by simp [hj]), hj]
    · rw [hout j hjp, hj]
  case redc =>
    intro hb p hp
    exact red_frame_pixels s.width s.height hb p hp

/-- Witness for C5: one pending uncompleted frame 0 and one completed frame
1; the single-shot decoder always fails, so frame 0 is completed with the
all-red placeholder, pending drains, and the counter grows by the
placeholder's 4 bytes. -/
theorem complete_pending_with_fallback_spec_witness :
    (completePendingWithFallback (fun _ => none)
        ⟨1, 1, [(0, none), (1, some [5, 5, 5, 5])], [0], none, [], false, false, 4, 100⟩).pending
      = []
    ∧ (completePendingWithFallback (fun _ => none)
        ⟨1, 1, [(0, none), (1, some [5, 5, 5, 5])], [0], none, [], false, false, 4, 100⟩).cacheBytes
      = 4 + fallbackAddedBytes (fun _ => none) 1 1 [(0, none), (1, some [5, 5, 5, 5])] [0] := by
  have h := complete_pending_with_fallback_spec (fun _ => none)
    ⟨1, 1, [(0, none), (1, some [5, 5, 5, 5])], [0], none, [], false, false, 4, 100⟩ (by simp)
  exact ⟨h.1, h.2.2.2.2 (by decide)⟩

theorem ensureEntry_state (s : DecState) (i : Nat) :
    (ensureEntry s i).2.pinned = s.pinned ∧ (ensureEntry s i).2.width = s.width
      ∧ (ensureEntry s i).2.height = s.height := by
  cases hl : lookupKey i s.frames with
  | none => simp [ensureEntry, hl]
  | some c => simp [ensureEntry, hl]

theorem finishFrame_pinned (s : DecState) (i : Nat) (f : Frame) :
    (finishFrame s i f).2.pinned = s.pinned := by
  by_cases hp : some i = s.pinned <;> simp [finishFrame, hp]

theorem awaitFrame_state (s : DecState) (i : Nat) :
    ∀ (trace : List TickObs) (v : Frame) (s1 : DecState),
      awaitFrame s i trace = some (v, s1) →
      s1.pinned = s.pinned ∧ s1.frames = s.frames
        ∧ s1.width = s.width ∧ s1.height = s.height := by
  intro trace
  induction trace with
  | nil => intro v s1 h; simp [awaitFrame] at h
  | cons ob rest ih =>
    intro v s1 h
    cases ob with
    | resolved m =>
      simp only [awaitFrame] at h
      cases hl : lookupKey i m with
      | none => rw [hl] at h; simp at h
      | some c =>
        cases c with
        | none => rw [hl] at h; simp at h
        | some w =>
          rw [hl] at h
          simp only [Option.some_inj, Prod.mk.injEq] at h
          rw [← h.2]
          exact ⟨rfl, rfl, rfl, rfl⟩
    | timeout r =>
      simp only [awaitFrame] at h
      by_cases hr : r > 0
      · rw [if_pos hr] at h
        exact ih v s1 h
      · rw [if_neg hr] at h
        simp only [Option.some_inj, Prod.mk.injEq] at h
        rw [← h.2]
        exact ⟨rfl, rfl, rfl, rfl⟩

theorem fallbackStep_pinned (singleShot : Nat → Option Frame) (s : DecState) (i : Nat) :
    (fallbackStep singleShot s i).pinned = s.pinned := by
  by_cases hr : (removeElem s.pending i).2 = true
  · cases hl : lookupKey i s.frames with
    | none => simp [fallbackStep, hr, hl]
    | some c =>
      cases c with
      | none => simp [fallbackStep, hr, hl]
      | some v => simp [fallbackStep, hr, hl]
  · simp [fallbackStep, hr]

theorem completePendingWithFallback_pinned (singleShot : Nat → Option Frame) :
    ∀ (l : List Nat) (st : DecState),
      (l.foldl (fallbackStep singleShot) st).pinned = st.pinned := by
  intro l
  induction l with
  | nil => intro st; rfl
  | cons a rest ih =>
    intro st
    show (rest.foldl (fallbackStep singleShot) (fallbackStep singleShot st a)).pinned = st.pinned
    rw [ih (fallbackStep singleShot st a), fallbackStep_pinned]

theorem gcPass_pinned (s : DecState) : (gcPass s).pinned = s.pinned := by
  by_cases h : s.cacheBytes ≥ s.maxBytes <;> simp [gcPass, h]

theorem streamAdvanceAux_pinned (byteStream : Nat → Nat) (readErr : Nat → Bool)
    (useHw spawnSwOk : Bool) (singleShot : Nat → Option Frame) :
    ∀ (fuel : Nat) (s : DecState) (current target pos : Nat),
      (streamAdvanceAux byteStream readErr useHw spawnSwOk singleShot fuel s current
        target pos).1.pinned = s.pinned := by
  intro fuel
  induction fuel with
  | zero => intro s current target pos; rfl
  | succ n ih =>
    intro s current target pos
    simp only [streamAdvanceAux]
    by_cases h1 : current > target
    · rw [if_pos h1]
    · rw [if_neg h1]
      by_cases h2 : (match s.pending.head? with
          | some m => decide (m < current)
          | none => false) = true
      · rw [if_pos h2]
      · rw [if_neg h2]
        by_cases h3 : readErr current = true
        · rw [if_pos h3]
          cases useHw with
          | true =>
            cases spawnSwOk with
            | true => rfl
            | false =>
              show (completePendingWithFallback singleShot s).pinned = s.pinned
              exact completePendingWithFallback_pinned singleShot s.pending s
          | false =>
            show (completePendingWithFallback singleShot s).pinned = s.pinned
            exact completePendingWithFallback_pinned singleShot s.pending s
        · rw [if_neg h3]
          by_cases h4 : (removeElem s.pending current).2 = true
          · cases hl : lookupKey current s.frames with
            | none => simp only [h4, if_pos, hl, ih]
            | some c =>
              cases c with
              | none => simp only [h4, if_true, hl, ih]
              | some v => simp only [h4, if_true, hl, ih]
          · simp only [h4, ih]
            simp

theorem getFrame_miss_pinned (s2 : DecState) (i : Nat) (trace : List TickObs)
    (v : Frame) (s1 : DecState)
    (h : (match awaitFrame s2 i trace with
          | some p => some (finishFrame p.2 i p.1)
          | none => none) = some (v, s1)) :
    s1.pinned = s2.pinned := by
  cases ha : awaitFrame s2 i trace with
  | none => rw [ha] at h; simp at h
  | some p =>
    rw [ha] at h
    simp only [Option.some_inj] at h
    have hs1 : s1 = (finishFrame p.2 i p.1).2 := by rw [h]
    rw [hs1, finishFrame_pinned]
    exact (awaitFrame_state s2 i trace p.1 p.2 ha).1

theorem getFrame_pinned_cases (s : DecState) (i : Nat) (trace : List TickObs) :
    ∀ (v : Frame) (s1 : DecState), getFrame s i trace = some (v, s1) →
      (s1.pinned = s.pinned ∨ (s.pinned = none ∧ s1.pinned = some i))
      ∧ (s.pinned = none →
          (lookupKey i s.frames = none ∨ lookupKey i s.frames = some Option.none) →
          s1.pinned = some i) := by
  intro v s1 h
  cases hl : lookupKey i s.frames with
  | some c =>
    cases c with
    | some w =>
      have he : ensureEntry s i = (some w, s) := by simp [ensureEntry, hl]
      simp only [getFrame, he] at h
      simp only [Option.some_inj] at h
      have hs1 : s1 = (finishFrame s i w).2 := by rw [h]
      constructor
      · left
        rw [hs1, finishFrame_pinned]
      · intro _ hcon
        rcases hcon with hcon | hcon <;> simp [hl] at hcon
    | none =>
      have he : ensureEntry s i = (none, s) := by simp [ensureEntry, hl]
      cases hp : s.pinned with
      | none =>
        simp only [getFrame, he, hp] at h
        have hm := getFrame_miss_pinned _ i trace v s1 h
        exact ⟨Or.inr ⟨rfl, hm⟩, fun _ _ => hm⟩
      | some j =>
        simp only [getFrame, he, hp] at h
        have hm := getFrame_miss_pinned _ i trace v s1 h
        refine ⟨Or.inl (by rw [hm]), fun hcon _ => ?ctr⟩
        case ctr => exact Option.noConfusion hcon
  | none =>
    have he : ensureEntry s i = (none, { s with frames := s.frames ++ [(i, none)] }) := by
      simp [ensureEntry, hl]
    cases hp : s.pinned with
    | none =>
      simp only [getFrame, he, hp] at h
      have hm := getFrame_miss_pinned _ i trace v s1 h
      exact ⟨Or.inr ⟨rfl, hm⟩, fun _ _ => hm⟩
    | some j =>
      simp only [getFrame, he, hp] at h
      have hm := getFrame_miss_pinned _ i trace v s1 h
      refine ⟨Or.inl (by rw [hm]), fun hcon _ => ?ctr2⟩
      case ctr2 => exact Option.noConfusion hcon

/-- Claim C7: `pinned_frame` is set to `Some(i)` by the first `get_frame(i)`
that misses the cache while it is `None`, and once it equals `Some(j)` no
operation of the decoder instance — further `get_frame` calls,
`finish_frame`, the stream worker's advance loop, the fallback completion,
the eviction GC, or `close` — ever changes it to a different value or back
to `None`. -/
theorem pinned_frame_write_once (s : DecState) (i j : Nat) (trace : List TickObs)
    (f : Frame) (byteStream : Nat → Nat) (readErr : Nat → Bool) (useHw spawnSwOk : Bool)
    (singleShot : Nat → Option Frame) (fuel current target pos : Nat) :
    (s.pinned = some j → ∀ (v : Frame) (s1 : DecState),
        getFrame s i trace = some (v, s1) → s1.pinned = some j)
    ∧ (s.pinned = none →
        (lookupKey i s.frames = none ∨ lookupKey i s.frames = some Option.none) →
        ∀ (v : Frame) (s1 : DecState),
          getFrame s i trace = some (v, s1) → s1.pinned = some i)
    ∧ (finishFrame s i f).2.pinned = s.pinned
    ∧ (gcPass s).pinned = s.pinned
    ∧ (streamAdvanceAux byteStream readErr useHw spawnSwOk singleShot fuel s current
        target pos).1.pinned = s.pinned
    ∧ (completePendingWithFallback singleShot s).pinned = s.pinned
    ∧ (closeDec s).pinned = s.pinned := by
  refine ⟨?gets, ?getn, finishFrame_pinned s i f, gcPass_pinned s,
    streamAdvanceAux_pinned byteStream readErr useHw spawnSwOk singleShot fuel s current
      target pos,
    completePendingWithFallback_pinned singleShot s.pending s, rfl⟩
  case gets =>
    intro hp v s1 h
    rcases (getFrame_pinned_cases s i trace v s1 h).1 with h1 | h1
    · rw [h1, hp]
    · rw [hp] at h1
      exact Option.noConfusion h1.1
  case getn =>
    intro hp hcell v s1 h
    exact (getFrame_pinned_cases s i trace v s1 h).2 hp hcell

/-- Witness for C7: on a fresh decoder with `pinned_frame = None`, the first
missing `get_frame(4)` (resolved by a stream completion) pins frame 4; on a
decoder pinned at 4, `finish_frame` leaves the pin at 4. -/
theorem pinned_frame_write_once_witness :
    (∀ (v : Frame) (s1 : DecState),
      getFrame ⟨1, 1, [], [], none, [], false, false, 0, 100⟩ 4
          [TickObs.resolved [(4, some [1, 2, 3, 4])]] = some (v, s1) →
        s1.pinned = some 4)
    ∧ (finishFrame ⟨1, 1, [], [], some 4, [], false, false, 0, 100⟩ 9 [5]).2.pinned
        = some 4 := by
  have h := pinned_frame_write_once ⟨1, 1, [], [], none, [], false, false, 0, 100⟩ 4 0
    [TickObs.resolved [(4, some [1, 2, 3, 4])]] [5] (fun _ => 0) (fun _ => false) true true
    (fun _ => none) 0 0 0 0
  have h2 := pinned_frame_write_once ⟨1, 1, [], [], some 4, [], false, false, 0, 100⟩ 9 0
    [] [5] (fun _ => 0) (fun _ => false) true true (fun _ => none) 0 0 0 0
  exact ⟨h.2.1 rfl (Or.inl rfl), h2.2.2.1⟩

/-- All completed cells of the map hold buffers of exactly `w*h*4` bytes. -/
def WFframes (w h : Nat) (frames : List (Nat × Cell)) : Prop :=
  ∀ p ∈ frames, ∀ v : Frame, p.2 = some v → v.length = w * h * 4

/-- Every `resolved` observation of the trace carries a well-formed map. -/
def TraceWF (w h : Nat) (trace : List TickObs) : Prop :=
  ∀ ob ∈ trace, ∀ m, ob = TickObs.resolved m → WFframes w h m

theorem lookupKey_mem (i : Nat) (c : Cell) :
    ∀ frames : List (Nat × Cell), lookupKey i frames = some c → (i, c) ∈ frames := by
  intro frames
  induction frames with
  | nil => intro h; simp [lookupKey] at h
  | cons kv rest ih =>
    intro h
    obtain ⟨k, d⟩ := kv
    by_cases hk : k = i
    · subst hk
      obtain rfl : d = c := by simpa [lookupKey] using h
      exact List.mem_cons.mpr (Or.inl rfl)
    · simp only [lookupKey, if_neg hk] at h
      exact List.mem_cons.mpr (Or.inr (ih h))

theorem WFframes_lookup {w h : Nat} {frames : List (Nat × Cell)} {i : Nat} {v : Frame}
    (hWF : WFframes w h frames) (hl : lookupKey i frames = some (some v)) :
    v.length = w * h * 4 :=
  hWF (i, some v) (lookupKey_mem i (some v) frames hl) v rfl

theorem setKey_mem (i : Nat) (c : Cell) :
    ∀ (frames : List (Nat × Cell)) (p : Nat × Cell),
      p ∈ setKey i c frames → p ∈ frames ∨ p.2 = c := by
  intro frames
  induction frames with
  | nil => intro p hp; simp [setKey] at hp
  | cons kv rest ih =>
    intro p hp
    obtain ⟨k, d⟩ := kv
    by_cases hk : k = i
    · simp only [setKey, if_pos hk] at hp
      rcases List.mem_cons.mp hp with he | hr
      · right
        rw [he]
      · exact Or.inl (List.mem_cons.mpr (Or.inr hr))
    · simp only [setKey, if_neg hk] at hp
      rcases List.mem_cons.mp hp with he | hr
      · exact Or.inl (List.mem_cons.mpr (Or.inl he))
      · rcases ih p hr with h1 | h1
        · exact Or.inl (List.mem_cons.mpr (Or.inr h1))
        · exact Or.inr h1

theorem WFframes_setKey {w h : Nat} {frames : List (Nat × Cell)} {i : Nat} {v : Frame}
    (hWF : WFframes w h frames) (hv : v.length = w * h * 4) :
    WFframes w h (setKey i (some v) frames) := by
  intro p hp v2 hp2
  rcases setKey_mem i (some v) frames p hp with h1 | h1
  · exact hWF p h1 v2 hp2
  · rw [h1] at hp2
    obtain rfl : v = v2 := by simpa using hp2
    exact hv

theorem frameSizeOf_eq (w h : Nat) (hb : w * h * 4 < U64) :
    frameSizeOf w h = w * h * 4 := by
  have h1 : w * h ≤ w * h * 4 := by omega
  unfold frameSizeOf satMul
  rw [min_eq_left (by omega), min_eq_left (by omega)]

theorem readNextFrame_length (byteStream : Nat → Nat) (pos size : Nat) :
    (readNextFrame byteStream pos size).length = size := by
  simp [readNextFrame]

theorem fallbackStep_wh (singleShot : Nat → Option Frame) (s : DecState) (i : Nat) :
    (fallbackStep singleShot s i).width = s.width
      ∧ (fallbackStep singleShot s i).height = s.height := by
  by_cases hr : (removeElem s.pending i).2 = true
  · cases hl : lookupKey i s.frames with
    | none => simp [fallbackStep, hr, hl]
    | some c =>
      cases c with
      | none => simp [fallbackStep, hr, hl]
      | some v => simp [fallbackStep, hr, hl]
  · simp [fallbackStep, hr]

theorem fallbackStep_WF (singleShot : Nat → Option Frame) (s : DecState) (i : Nat)
    (hb : s.width * s.height * 4 < U32)
    (hshot : ∀ k v, singleShot k = some v → v.length = s.width * s.height * 4)
    (hWF : WFframes s.width s.height s.frames) :
    WFframes s.width s.height (fallbackStep singleShot s i).frames := by
  by_cases hr : (removeElem s.pending i).2 = true
  · cases hl : lookupKey i s.frames with
    | none => simpa [fallbackStep, hr, hl] using hWF
    | some c =>
      cases c with
      | none =>
        have hframes : (fallbackStep singleShot s i).frames
            = setKey i (some ((singleShot i).getD
                (DecoderRs.generate_empty_frame s.width s.height))) s.frames := by
          simp [fallbackStep, hr, hl]
        rw [hframes]
        refine WFframes_setKey hWF ?len
        cases hs : singleShot i with
        | none => simpa [hs] using red_frame_length s.width s.height hb
        | some v => simpa [hs] using hshot i v hs
      | some v => simpa [fallbackStep, hr, hl] using hWF
  · simpa [fallbackStep, hr] using hWF

theorem completePendingWithFallback_fold_WF (singleShot : Nat → Option Frame) :
    ∀ (l : List Nat) (st : DecState),
      st.width * st.height * 4 < U32 →
      (∀ k v, singleShot k = some v → v.length = st.width * st.height * 4) →
      WFframes st.width st.height st.frames →
      ((l.foldl (fallbackStep singleShot) st).width = st.width
      ∧ (l.foldl (fallbackStep singleShot) st).height = st.height
      ∧ WFframes st.width st.height (l.foldl (fallbackStep singleShot) st).frames) := by
  intro l
  induction l with
  | nil => intro st _ _ hWF; exact ⟨rfl, rfl, hWF⟩
  | cons a rest ih =>
    intro st hb hshot hWF
    have hwh := fallbackStep_wh singleShot st a
    have hstep := fallbackStep_WF singleShot st a hb hshot hWF
    have hb2 : (fallbackStep singleShot st a).width
        * (fallbackStep singleShot st a).height * 4 < U32 := by
      rw [hwh.1, hwh.2]
      exact hb
    have hshot2 : ∀ k v, singleShot k = some v →
        v.length = (fallbackStep singleShot st a).width
          * (fallbackStep singleShot st a).height * 4 := by
      intro k v hv
      rw [hwh.1, hwh.2]
      exact hshot k v hv
    have hWF2 : WFframes (fallbackStep singleShot st a).width
        (fallbackStep singleShot st a).height (fallbackStep singleShot st a).frames := by
      rw [hwh.1, hwh.2]
      exact hstep
    obtain ⟨ihw, ihh, ihWF⟩ := ih (fallbackStep singleShot st a) hb2 hshot2 hWF2
    simp only [List.foldl_cons]
    refine ⟨by rw [ihw, hwh.1], by rw [ihh, hwh.2], ?wf⟩
    case wf =>
      rw [← hwh.1, ← hwh.2]
      exact ihWF

theorem U32_lt_U64 : U32 < U64 := by norm_num [U32, U64]

theorem streamAdvanceAux_WF (byteStream : Nat → Nat) (readErr : Nat → Bool)
    (useHw spawnSwOk : Bool) (singleShot : Nat → Option Frame) :
    ∀ (fuel : Nat) (s : DecState) (current target pos : Nat),
      s.width * s.height * 4 < U32 →
      (∀ k v, singleShot k = some v → v.length = s.width * s.height * 4) →
      WFframes s.width s.height s.frames →
      ((streamAdvanceAux byteStream readErr useHw spawnSwOk singleShot fuel s current
          target pos).1.width = s.width
      ∧ (streamAdvanceAux byteStream readErr useHw spawnSwOk singleShot fuel s current
          target pos).1.height = s.height
      ∧ WFframes s.width s.height
          (streamAdvanceAux byteStream readErr useHw spawnSwOk singleShot fuel s current
            target pos).1.frames) := by
  intro fuel
  induction fuel with
  | zero => intro s current target pos _ _ hWF; exact ⟨rfl, rfl, hWF⟩
  | succ n ih =>
    intro s current target pos hb hshot hWF
    simp only [streamAdvanceAux]
    by_cases h1 : current > target
    · rw [if_pos h1]
      exact ⟨rfl, rfl, hWF⟩
    · rw [if_neg h1]
      by_cases h2 : (match s.pending.head? with
          | some m => decide (m < current)
          | none => false) = true
      · rw [if_pos h2]
        exact ⟨rfl, rfl, hWF⟩
      · rw [if_neg h2]
        by_cases h3 : readErr current = true
        · rw [if_pos h3]
          cases useHw with
          | true =>
            cases spawnSwOk with
            | true => exact ⟨rfl, rfl, hWF⟩
            | false =>
              exact completePendingWithFallback_fold_WF singleShot s.pending s hb hshot hWF
          | false =>
            exact completePendingWithFallback_fold_WF singleShot s.pending s hb hshot hWF
        · rw [if_neg h3]
          have hlen : (readNextFrame byteStream pos (frameSizeOf s.width s.height)).length
              = s.width * s.height * 4 := by
            rw [readNextFrame_length, frameSizeOf_eq]
            exact lt_trans hb U32_lt_U64
          by_cases h4 : (removeElem s.pending current).2 = true
          · cases hl : lookupKey current s.frames with
            | none =>
              simp only [h4, if_true, hl]
              exact ih _ (current + 1) target _ hb hshot hWF
            | some c =>
              cases c with
              | none =>
                simp only [h4, if_true, hl]
                refine ih _ (current + 1) target _ hb hshot ?wfstep
                case wfstep =>
                  exact WFframes_setKey hWF hlen
              | some v =>
                simp only [h4, if_true, hl]
                exact ih _ (current + 1) target _ hb hshot hWF
          · simp only [h4]
            have hfalse : ((removeElem s.pending current).2 = true) = False := by
              simp [h4]
            rw [if_neg (by simp [h4])]
            exact ih _ (current + 1) target _ hb hshot hWF

theorem finishFrame_fst (s : DecState) (i : Nat) (f : Frame) :
    (finishFrame s i f).1 = f := by
  by_cases hp : some i = s.pinned <;> simp [finishFrame, hp]

theorem WFframes_append_pending {w h : Nat} {f : List (Nat × Cell)} (i : Nat)
    (hWF : WFframes w h f) : WFframes w h (f ++ [(i, (none : Cell))]) := by
  intro p hp v hv
  rcases List.mem_append.mp hp with h1 | h1
  · exact hWF p h1 v hv
  · rw [List.mem_singleton] at h1
    rw [h1] at hv
    exact absurd hv (by simp)

theorem awaitFrame_length (s : DecState) (i : Nat)
    (hb : s.width * s.height * 4 < U32)
    (hWF : WFframes s.width s.height s.frames) :
    ∀ (trace : List TickObs), TraceWF s.width s.height trace →
      ∀ (v : Frame) (s1 : DecState), awaitFrame s i trace = some (v, s1) →
        v.length = s.width * s.height * 4 := by
  intro trace
  induction trace with
  | nil => intro _ v s1 h; simp [awaitFrame] at h
  | cons ob rest ih =>
    intro hTr v s1 h
    cases ob with
    | resolved m =>
      simp only [awaitFrame] at h
      cases hl : lookupKey i m with
      | none => rw [hl] at h; simp at h
      | some c =>
        cases c with
        | none => rw [hl] at h; simp at h
        | some w =>
          rw [hl] at h
          simp only [Option.some_inj, Prod.mk.injEq] at h
          have hm : WFframes s.width s.height m :=
            hTr (TickObs.resolved m) (List.mem_cons.mpr (Or.inl rfl)) m rfl
          rw [← h.1]
          exact WFframes_lookup hm hl
    | timeout r =>
      simp only [awaitFrame] at h
      by_cases hr : r > 0
      · rw [if_pos hr] at h
        exact ih (fun ob2 hob2 => hTr ob2 (List.mem_cons.mpr (Or.inr hob2))) v s1 h
      · rw [if_neg hr] at h
        simp only [Option.some_inj, Prod.mk.injEq] at h
        rw [← h.1]
        show (fallbackFrame { s with pending := (removeElem s.pending i).1 } i).length
            = s.width * s.height * 4
        simp only [fallbackFrame]
        cases hn : nearestPredecessor s.frames i with
        | some w =>
          obtain ⟨j, _, hj, _⟩ := nearestPredecessor_some s.frames i w hn
          exact WFframes_lookup hWF hj
        | none => exact red_frame_length s.width s.height hb

theorem getFrame_miss_val (s2 : DecState) (i : Nat) (trace : List TickObs)
    (v : Frame) (s1 : DecState)
    (h : (match awaitFrame s2 i trace with
          | some p => some (finishFrame p.2 i p.1)
          | none => none) = some (v, s1)) :
    awaitFrame s2 i trace = some (v, (awaitFrame s2 i trace).getD (v, s1) |>.2) := by
  cases ha : awaitFrame s2 i trace with
  | none => rw [ha] at h; simp at h
  | some p =>
    rw [ha] at h
    simp only [Option.some_inj] at h
    have hv : v = p.1 := by
      have := congrArg Prod.fst h
      rw [finishFrame_fst] at this
      exact this.symm
    simp only [Option.getD]
    rw [hv]

theorem getFrame_length (s : DecState) (i : Nat) (trace : List TickObs)
    (hb : s.width * s.height * 4 < U32)
    (hWF : WFframes s.width s.height s.frames)
    (hTr : TraceWF s.width s.height trace) :
    ∀ (v : Frame) (s1 : DecState), getFrame s i trace = some (v, s1) →
      v.length = s.width * s.height * 4 := by
  intro v s1 h
  cases hl : lookupKey i s.frames with
  | some c =>
    cases c with
    | some w =>
      have he : ensureEntry s i = (some w, s) := by simp [ensureEntry, hl]
      simp only [getFrame, he] at h
      simp only [Option.some_inj] at h
      have hv : v = w := by
        have := congrArg Prod.fst h
        rw [finishFrame_fst] at this
        exact this.symm
      rw [hv]
      exact WFframes_lookup hWF hl
    | none =>
      have he : ensureEntry s i = (none, s) := by simp [ensureEntry, hl]
      cases hp : s.pinned with
      | none =>
        simp only [getFrame, he, hp] at h
        have hm := getFrame_miss_val _ i trace v s1 h
        exact awaitFrame_length { s with pending := insertSorted s.pending i, pinned := some i, streamRunning := true } i hb hWF trace hTr v _ hm
      | some j =>
        simp only [getFrame, he, hp] at h
        have hm := getFrame_miss_val _ i trace v s1 h
        exact awaitFrame_length { s with pending := insertSorted s.pending i, pinned := some j, streamRunning := true } i hb hWF trace hTr v _ hm
  | none =>
    have he : ensureEntry s i = (none, { s with frames := s.frames ++ [(i, none)] }) := by
      simp [ensureEntry, hl]
    have hWF2 : WFframes s.width s.height (s.frames ++ [(i, (none : Cell))]) :=
      WFframes_append_pending i hWF
    cases hp : s.pinned with
    | none =>
      simp only [getFrame, he, hp] at h
      have hm := getFrame_miss_val _ i trace v s1 h
      exact awaitFrame_length { s with frames := s.frames ++ [(i, none)], pending := insertSorted s.pending i, pinned := some i, streamRunning := true } i hb hWF2 trace hTr v _ hm
    | some j =>
      simp only [getFrame, he, hp] at h
      have hm := getFrame_miss_val _ i trace v s1 h
      exact awaitFrame_length { s with frames := s.frames ++ [(i, none)], pending := insertSorted s.pending i, pinned := some j, streamRunning := true } i hb hWF2 trace hTr v _ hm

/-- Claim C1: every `get_frame(frame_index)` call returns a byte buffer of
length exactly `width*height*4`, on every path — cache hit, stream-produced
completion, single-shot fallback completion, nearest-predecessor timeout
fallback, and synthesised empty frame.  The first conjunct covers all
`get_frame` exits given that the cache and every resolving completion are
well-formed; the second and third show the stream advance loop and the
single-shot fallback routine only ever complete cells with
`width*height*4`-byte buffers, so well-formedness is preserved by the tasks
that fill the cache.  (`singleShot` models `hw_decoder::extract_frame_hw_rgba`,
whose source is not provided; per the spec's §6 contract it returns RGBA
bytes of the requested resolution.) -/
theorem get_frame_length_all_paths
    (s : DecState) (i : Nat) (trace : List TickObs)
    (byteStream : Nat → Nat) (readErr : Nat → Bool) (useHw spawnSwOk : Bool)
    (singleShot : Nat → Option Frame) (fuel current target pos : Nat)
    (hb : s.width * s.height * 4 < U32)
    (hWF : WFframes s.width s.height s.frames)
    (hTr : TraceWF s.width s.height trace)
    (hshot : ∀ k v, singleShot k = some v → v.length = s.width * s.height * 4) :
    (∀ (v : Frame) (s1 : DecState), getFrame s i trace = some (v, s1) →
        v.length = s.width * s.height * 4)
    ∧ WFframes s.width s.height
        (streamAdvanceAux byteStream readErr useHw spawnSwOk singleShot fuel s current
          target pos).1.frames
    ∧ WFframes s.width s.height (completePendingWithFallback singleShot s).frames := by
  refine ⟨getFrame_length s i trace hb hWF hTr, ?streamc, ?fallc⟩
  case streamc =>
    exact (streamAdvanceAux_WF byteStream readErr useHw spawnSwOk singleShot fuel s current
      target pos hb hshot hWF).2.2
  case fallc =>
    exact (completePendingWithFallback_fold_WF singleShot s.pending s hb hshot hWF).2.2

/-- Witness for C1: a fresh 1x1 decoder, `get_frame(0)` resolved by the
timeout fallback with an empty cache, returns the synthesised empty frame of
exactly `1*1*4` bytes. -/
theorem get_frame_length_all_paths_witness :
    (DecoderRs.generate_empty_frame 1 1).length = 1 * 1 * 4 := by
  have h := get_frame_length_all_paths ⟨1, 1, [], [], none, [], false, false, 0, 100⟩ 0
    [TickObs.timeout 0] (fun _ => 0) (fun _ => false) true true (fun _ => none) 0 0 0 0
    (by decide) (by intro p hp v hv; simp at hp)
    (by
      intro ob hob m hm
      rw [List.mem_singleton] at hob
      subst hob
      exact TickObs.noConfusion hm)
    (fun k v hv => Option.noConfusion hv)
  exact h.1 (DecoderRs.generate_empty_frame 1 1)
    ⟨1, 1, [(0, none)], [], some 0, [], true, false, 0, 100⟩ (by decide)

theorem scanPacketFrames_no_match (tsIndex : Int → Nat) (target : Nat) :
    ∀ (frames : List SwFrame) (fb : Nat),
      (∀ f ∈ frames, ∃ t, f.ts = some t ∧ tsIndex t ≠ target) →
      (scanPacketFrames tsIndex target frames fb).1 = none := by
  intro frames
  induction frames with
  | nil => intro fb _; rfl
  | cons f rest ih =>
    intro fb hts
    obtain ⟨t, hft, hne⟩ := hts f (List.mem_cons.mpr (Or.inl rfl))
    simp only [scanPacketFrames, hft, swFrameIndex]
    rw [if_neg hne]
    by_cases hgt : tsIndex t > target + 8
    · rw [if_pos hgt]
    · rw [if_neg hgt]
      exact ih fb (fun f2 hf2 => hts f2 (List.mem_cons.mpr (Or.inr hf2)))

theorem scanDrainFrames_no_match (tsIndex : Int → Nat) (target : Nat) :
    ∀ (frames : List SwFrame) (fb : Nat),
      (∀ f ∈ frames, ∃ t, f.ts = some t ∧ tsIndex t ≠ target) →
      (scanDrainFrames tsIndex target frames fb).1 = none := by
  intro frames
  induction frames with
  | nil => intro fb _; rfl
  | cons f rest ih =>
    intro fb hts
    obtain ⟨t, hft, hne⟩ := hts f (List.mem_cons.mpr (Or.inl rfl))
    simp only [scanDrainFrames, hft, swFrameIndex]
    rw [if_neg hne]
    exact ih fb (fun f2 hf2 => hts f2 (List.mem_cons.mpr (Or.inr hf2)))

theorem swPacketLoop_no_match (tsIndex : Int → Nat)
    (rgbaOf : SwFrame → Except String (List Nat)) (videoIdx target : Nat) :
    ∀ (packets : List SwPacket) (fb : Nat),
      (∀ p ∈ packets, p.streamIdx = videoIdx → p.sendOk = true) →
      (∀ p ∈ packets, ∀ f ∈ p.frames, ∃ t, f.ts = some t ∧ tsIndex t ≠ target) →
      ∃ fb2, swPacketLoop tsIndex rgbaOf videoIdx target packets fb = Sum.inr fb2 := by
  intro packets
  induction packets with
  | nil => intro fb _ _; exact ⟨fb, rfl⟩
  | cons p rest ih =>
    intro fb hsend hts
    by_cases hidx : p.streamIdx ≠ videoIdx
    · simp only [swPacketLoop, if_pos hidx]
      exact ih fb (fun p2 hp2 => hsend p2 (List.mem_cons.mpr (Or.inr hp2)))
        (fun p2 hp2 => hts p2 (List.mem_cons.mpr (Or.inr hp2)))
    · have hok : p.sendOk = true := by
        push_neg at hidx
        exact hsend p (List.mem_cons.mpr (Or.inl rfl)) hidx
      have hnone := scanPacketFrames_no_match tsIndex target p.frames fb
        (fun f hf => hts p (List.mem_cons.mpr (Or.inl rfl)) f hf)
      cases hs : scanPacketFrames tsIndex target p.frames fb with
      | mk a b =>
        rw [hs] at hnone
        simp only at hnone
        subst hnone
        obtain ⟨fb3, hrest⟩ := ih b
          (fun p2 hp2 => hsend p2 (List.mem_cons.mpr (Or.inr hp2)))
          (fun p2 hp2 => hts p2 (List.mem_cons.mpr (Or.inr hp2)))
        refine ⟨fb3, ?eq⟩
        simp only [swPacketLoop, if_neg hidx, hok, hs]
        simpa using hrest

/-- Claim C10: when `extract_frame_sw_rgba` decodes the whole input
(including the post-EOF drain) without ever producing a frame whose computed
index equals the target — here: every decoded frame carries a timestamp
whose computed index differs from the target — it returns `Ok` with the
synthesised empty frame: `dst_width*dst_height*4` bytes, every pixel opaque
black `(0,0,0,255)`; no error, and not the all-red placeholder. -/
theorem extract_sw_no_match_black (tsIndex : Int → Nat)
    (rgbaOf : SwFrame → Except String (List Nat)) (videoIdx : Nat)
    (packets : List SwPacket) (drainFrames : List SwFrame)
    (target dstWidth dstHeight : Nat)
    (hsend : ∀ p ∈ packets, p.streamIdx = videoIdx → p.sendOk = true)
    (hts : ∀ p ∈ packets, ∀ f ∈ p.frames, ∃ t, f.ts = some t ∧ tsIndex t ≠ target)
    (htsd : ∀ f ∈ drainFrames, ∃ t, f.ts = some t ∧ tsIndex t ≠ target) :
    extract_frame_sw_rgba tsIndex rgbaOf videoIdx true packets drainFrames target
        dstWidth dstHeight
      = Except.ok (SwDecoder.generate_empty_frame dstWidth dstHeight)
    ∧ (dstWidth * dstHeight * 4 < U32 →
        (SwDecoder.generate_empty_frame dstWidth dstHeight).length
            = dstWidth * dstHeight * 4
        ∧ ∀ p, p < dstWidth * dstHeight →
            pixelAt (SwDecoder.generate_empty_frame dstWidth dstHeight) p
              = (some 0, some 0, some 0, some 255)) := by
  constructor
  · obtain ⟨fb2, hloop⟩ := swPacketLoop_no_match tsIndex rgbaOf videoIdx target packets
      target hsend hts
    have hdrain := scanDrainFrames_no_match tsIndex target drainFrames fb2 htsd
    simp only [extract_frame_sw_rgba, hloop]
    cases hs : scanDrainFrames tsIndex target drainFrames fb2 with
    | mk a b =>
      rw [hs] at hdrain
      simp only at hdrain
      subst hdrain
      simp
  · intro hb
    exact ⟨black_frame_length dstWidth dstHeight hb,
      black_frame_pixels dstWidth dstHeight hb⟩

/-- Witness for C10: one video packet whose only frame is timestamped away
from the target, one drained frame likewise; the extractor returns the
opaque-black 1x1 empty frame. -/
theorem extract_sw_no_match_black_witness :
    extract_frame_sw_rgba (fun _ => 5) (fun _ => Except.error "x") 0 true
        [⟨0, true, [⟨some 7⟩]⟩] [⟨some 9⟩] 3 1 1
      = Except.ok (SwDecoder.generate_empty_frame 1 1)
    ∧ (SwDecoder.generate_empty_frame 1 1).length = 1 * 1 * 4 := by
  have h := extract_sw_no_match_black (fun _ => 5) (fun _ => Except.error "x") 0
    [⟨0, true, [⟨some 7⟩]⟩] [⟨some 9⟩] 3 1 1
    (by intro p hp _; rw [List.mem_singleton] at hp; subst hp; rfl)
    (by
      intro p hp f hf
      rw [List.mem_singleton] at hp
      subst hp
      rw [List.mem_singleton] at hf
      subst hf
      exact ⟨7, rfl, by decide⟩)
    (by
      intro f hf
      rw [List.mem_singleton] at hf
      subst hf
      exact ⟨9, rfl, by decide⟩)
  exact ⟨h.1, (h.2 (by decide)).1⟩
